import Mathlib

/-!
Verification of the ordered stream index of the diy-redis repository.

The definitions below are a shallow embedding of the Go sources:
  app/diyredis/streams/keys.go    (key codec)
  app/diyredis/streams/radix.go   (radix node operations)
  streams.go of the same package  (Stream object: Put / Search / Range)

Machine integers (uint64) are modelled as Nat with explicit reduction
modulo 2^64 where the Go code can wrap.  Fallible evaluation (Go panics:
index out of range, slice bounds out of range, nil dereference) is made
explicit with an Except result type.  Unbounded Go for-loops are embedded
with a fuel parameter; the entry points supply fuel (key length + 1),
which is enough for every terminating walk of the depth-22 trie.
-/

namespace DiyRedis

/-- U64 is 2 to the 64th power, the modulus of uint64 arithmetic. -/
def U64 : Nat := 2 ^ 64

/-- MaxUint64 from streams.go: the all-ones uint64. -/
def MaxUint64 : Nat := U64 - 1

/-- Key from keys.go: a pair of uint64 values. -/
structure Key where
  LeftNr : Nat
  RightNr : Nat
deriving DecidableEq, Repr

/-- A Key is well formed when both fields fit in a uint64. -/
def Key.Wf (k : Key) : Prop := k.LeftNr < U64 ∧ k.RightNr < U64

instance (k : Key) : Decidable k.Wf := by unfold Key.Wf; infer_instance

/-- MaxKey from keys.go. -/
def MaxKey : Key := ⟨MaxUint64, MaxUint64⟩

/-- MinKey from keys.go. -/
def MinKey : Key := ⟨0, 0⟩

/-- Key.GreaterThan from keys.go. -/
def Key.GreaterThan (k k2 : Key) : Bool :=
  if k.LeftNr > k2.LeftNr then true
  else if k.LeftNr = k2.LeftNr ∧ k.RightNr > k2.RightNr then true
  else false

/-- Key.LesserThan from keys.go. -/
def Key.LesserThan (k k2 : Key) : Bool :=
  if k.LeftNr < k2.LeftNr then true
  else if k.LeftNr = k2.LeftNr ∧ k.RightNr < k2.RightNr then true
  else false

/-- Key.EqualTo from keys.go. -/
def Key.EqualTo (k k2 : Key) : Bool :=
  if k.LeftNr = k2.LeftNr ∧ k.RightNr = k2.RightNr then true else false

/-- Key.IsMin from keys.go. -/
def Key.IsMin (k : Key) : Bool :=
  if k.LeftNr = 0 ∧ k.RightNr = 0 then true else false

/-- Key.IsMax from keys.go. -/
def Key.IsMax (k : Key) : Bool :=
  if k.LeftNr = MaxUint64 ∧ k.RightNr = MaxUint64 then true else false

/-- Key.Next from keys.go: increment RightNr with carry into LeftNr; the
overflow flag is set when both wrapped to zero. -/
def Key.Next (k : Key) : Key × Bool :=
  let rightNr := (k.RightNr + 1) % U64
  if rightNr = 0 then
    let leftNr := (k.LeftNr + 1) % U64
    (⟨leftNr, rightNr⟩, leftNr = 0)
  else
    (⟨k.LeftNr, rightNr⟩, false)

/-- Key.Prev from keys.go, verbatim: RightNr is decremented (wrapping), but
the borrow branch tests the ORIGINAL RightNr against MaxUint64 instead of
the decremented value. -/
def Key.Prev (k : Key) : Key × Bool :=
  let rightNr := (k.RightNr + (U64 - 1)) % U64
  if k.RightNr = MaxUint64 then
    let leftNr := (k.LeftNr + (U64 - 1)) % U64
    (⟨leftNr, rightNr⟩, leftNr = MaxUint64)
  else
    (⟨k.LeftNr, rightNr⟩, false)

/-- Loop of toBase64 from keys.go, embedded with fuel (val & 63 is
val % 64, val >> 6 is val / 64).  Fuel 11 covers every uint64 value. -/
def toBase64Aux : Nat → Nat → List Nat
  | 0, val => [val]
  | fuel + 1, val =>
    if val < 64 then [val]
    else toBase64Aux fuel (val / 64) ++ [val % 64]

/-- Digits of a value in base 64, most significant first, as written by the
loop of toBase64 in keys.go. -/
def toBase64Digits (val : Nat) : List Nat := toBase64Aux 11 val

/-- Left padding with zeros up to width w; this models the zero-initialized
buffer of make([]uint8, n) into which toBase64 writes from the right. -/
def zeroPad (w : Nat) (ds : List Nat) : List Nat :=
  List.replicate (w - ds.length) 0 ++ ds

/-- Key.internalRepr from keys.go: toBase64 of LeftNr into the first 11
symbols and of RightNr into the last 11. -/
def Key.internalRepr (k : Key) : List Nat :=
  zeroPad 11 (toBase64Digits k.LeftNr) ++ zeroPad 11 (toBase64Digits k.RightNr)

/-- Lexicographic strict order on symbol lists, used to state the claims
about ordering of internal representations. -/
def lexLt : List Nat → List Nat → Bool
  | _, [] => false
  | [], _ :: _ => true
  | a :: as, b :: bs => decide (a < b) || (decide (a = b) && lexLt as bs)

/-- Value of a base-64 digit list, most significant digit first. -/
def ofDigits (ds : List Nat) : Nat := ds.foldl (fun a d => a * 64 + d) 0

/-- Entry from radix.go: a key-value pair; the Go payload type (any) is the
type parameter. -/
structure Entry (α : Type) where
  Key : Key
  Val : α
deriving DecidableEq, Repr

/-- RxNode from radix.go: entry (leaves only), child bitmap, compression
symbols, and the ordered child vector. -/
inductive RxNode (α : Type) : Type where
  | mk (entry : Option (Entry α)) (bitmap : Nat) (extraChars : List Nat)
      (children : List (RxNode α))

variable {α : Type}

/-- Projection: the entry field of an RxNode. -/
def RxNode.entry : RxNode α → Option (Entry α)
  | .mk e _ _ _ => e

/-- Projection: the bitmap field of an RxNode. -/
def RxNode.bitmap : RxNode α → Nat
  | .mk _ b _ _ => b

/-- Projection: the extraChars field of an RxNode. -/
def RxNode.extraChars : RxNode α → List Nat
  | .mk _ _ x _ => x

/-- Projection: the children field of an RxNode. -/
def RxNode.children : RxNode α → List (RxNode α)
  | .mk _ _ _ c => c

/-- Result type of the embedded Go code; the error constructor models a Go
runtime panic (index / slice bounds / nil dereference) or exhausted fuel. -/
abbrev Res (β : Type) := Except String β

/-- Go slice indexing s[i]: panics when i is out of bounds. -/
def listGet {β : Type} (l : List β) (i : Nat) : Res β :=
  match l.get? i with
  | some x => .ok x
  | none => .error "index out of range"

/-- Go slicing s[:j] where j may be a negative int: panics unless
0 <= j <= len(s).  (Go also allows len < j <= cap; the embedded code never
slices past the length of a child vector, compare appendChild.) -/
def goSliceTo {β : Type} (l : List β) (j : Int) : Res (List β) :=
  if j < 0 ∨ j > l.length then .error "slice bounds out of range"
  else .ok (l.take j.toNat)

/-- Go slicing s[i:]: panics unless i <= len(s). -/
def goSliceFrom {β : Type} (l : List β) (i : Nat) : Res (List β) :=
  if i > l.length then .error "slice bounds out of range"
  else .ok (l.drop i)

/-- Bit i of a natural number, written arithmetically so that the kernel
can evaluate it (bitmap & (1 << s) != 0 in radix.go). -/
def tstBit (b s : Nat) : Bool := (b / 2 ^ s) % 2 = 1

/-- getChildIdx from radix.go: bits.OnesCount64(bitmap & (MaxUint64 >>
(64 - offset))) counts the set bits strictly below the offset; the special
case offset = 0 avoids the undefined 64-bit shift.  Symbols are always
below 64 (base-64 digits), so the mask is 2^offset - 1 and the count is
embedded as the number of set bits below the offset. -/
def getChildIdx (bitmap : Nat) (bitmapOffset : Nat) : Nat :=
  if bitmapOffset = 0 then 0
  else ((List.range bitmapOffset).filter (fun i => tstBit bitmap i)).length

/-- Inner loop of longestCommonPrefix and create over extraChars: first
index where the compressed symbols disagree with the key (none when the
whole of extraChars matches).  Reading past the end of the key is the Go
panic the source comments argue cannot happen. -/
def walkExtra : List Nat → List Nat → Res (Option Nat)
  | [], _ => .ok none
  | _ :: _, [] => .error "index out of range"
  | c :: cs, k :: ks =>
    if c ≠ k then .ok (some 0)
    else
      match walkExtra cs ks with
      | .ok none => .ok none
      | .ok (some i) => .ok (some (i + 1))
      | .error msg => .error msg

/-- Inner loop of higherSiblingsDFS / lowerSiblingsDFS over extraChars:
three-way comparison of the compressed symbols against the key, stopping
at the first difference. -/
def cmpExtra : List Nat → List Nat → Res Ordering
  | [], _ => .ok .eq
  | _ :: _, [] => .error "index out of range"
  | c :: cs, k :: ks =>
    if c < k then .ok .lt
    else if c > k then .ok .gt
    else cmpExtra cs ks

/-- RxNode.longestCommonPrefix from radix.go, embedded with fuel and with
the key passed as (depth, suffix).  Returns the best-match node and the
two failure indices (-1 / -1 on an exact hit). -/
def RxNode.longestCommonPfx : Nat → RxNode α → Nat → List Nat → Res (RxNode α × Int × Int)
  | 0, _, _, _ => .error "loop fuel exhausted"
  | fuel + 1, n, depth, ks =>
    match walkExtra n.extraChars ks with
    | .error msg => .error msg
    | .ok (some i) => .ok (n, ((depth + i : Nat) : Int), (i : Int))
    | .ok none =>
      match ks.drop n.extraChars.length with
      | [] => .ok (n, -1, -1)
      | s :: rest =>
        if tstBit n.bitmap s then
          match listGet n.children (getChildIdx n.bitmap s) with
          | .error msg => .error msg
          | .ok child =>
            child.longestCommonPfx fuel (depth + n.extraChars.length + 1) rest
        else .ok (n, ((depth + n.extraChars.length : Nat) : Int), -1)

/-- RxNode.create from radix.go fused with the entry assignment performed
by Stream.Put on the returned node (create only returns the node; Put then
stores the entry in it).  The missing-child branch sets the new bit (the
bitwise or equals addition because the branch is only taken when the bit
is clear) and inserts a fresh node at the bitmap-induced index
(appendChild); the split branch cuts extraChars at the failing offset and
replaces the children with the two diverging nodes in symbol order. -/
def RxNode.createP : Nat → RxNode α → List Nat → Entry α → Res (RxNode α)
  | 0, _, _, _ => .error "loop fuel exhausted"
  | fuel + 1, n, ks, e =>
    match walkExtra n.extraChars ks with
    | .error msg => .error msg
    | .ok (some i) =>
      match listGet n.extraChars i, listGet ks i with
      | .error msg, _ => .error msg
      | _, .error msg => .error msg
      | .ok splitNodeOffset, .ok newNodeOffset =>
        let splitNode : RxNode α :=
          .mk n.entry n.bitmap (n.extraChars.drop (i + 1)) n.children
        let newNode : RxNode α := .mk (some e) 0 (ks.drop (i + 1)) []
        let children :=
          if newNodeOffset > splitNodeOffset then [splitNode, newNode]
          else [newNode, splitNode]
        .ok (.mk none (2 ^ splitNodeOffset + 2 ^ newNodeOffset)
          (n.extraChars.take i) children)
    | .ok none =>
      match ks.drop n.extraChars.length with
      | [] => .ok (.mk (some e) n.bitmap n.extraChars n.children)
      | s :: rest =>
        if tstBit n.bitmap s then
          let idx := getChildIdx n.bitmap s
          match listGet n.children idx with
          | .error msg => .error msg
          | .ok child =>
            match child.createP fuel rest e with
            | .error msg => .error msg
            | .ok child2 => .ok (.mk n.entry n.bitmap n.extraChars (n.children.set idx child2))
        else
          let bitmap2 := n.bitmap + 2 ^ s
          let idx := getChildIdx bitmap2 s
          let newNode : RxNode α := .mk (some e) 0 rest []
          .ok (.mk n.entry bitmap2 n.extraChars (n.children.insertIdx idx newNode))

/-- RxNode.getAllLeaves from radix.go: the iterative stack DFS (children
pushed right to left, stack popped from the end) visits the node, emits
its entry when present, and otherwise processes the children left to
right; this is exactly the following structural traversal. -/
def RxNode.getAllLeaves : RxNode α → List (Entry α)
  | .mk (some e) _ _ _ => [e]
  | .mk none _ _ children =>
    children.attach.flatMap (fun c => c.1.getAllLeaves)
decreasing_by
  have := List.sizeOf_lt_of_mem c.2
  simp only [RxNode.mk.sizeOf_spec] at *
  omega

/-- RxNode.higherSiblingsDFS from radix.go: walk down the path of the key,
harvesting the subtrees of all higher siblings; result ordered highest to
lowest. -/
def RxNode.higherSiblingsDFS : Nat → RxNode α → List Nat → List (RxNode α) → Res (List (RxNode α))
  | 0, _, _, _ => .error "loop fuel exhausted"
  | fuel + 1, n, ks, result =>
    match cmpExtra n.extraChars ks with
    | .error msg => .error msg
    | .ok .lt => .ok result
    | .ok .gt => .ok (result ++ [n])
    | .ok .eq =>
      match ks.drop n.extraChars.length with
      | [] => .ok (result ++ [n])
      | s :: rest =>
        let childIdx := getChildIdx n.bitmap s
        if tstBit n.bitmap s then
          match goSliceFrom n.children (childIdx + 1) with
          | .error msg => .error msg
          | .ok hi =>
            match listGet n.children childIdx with
            | .error msg => .error msg
            | .ok child => child.higherSiblingsDFS fuel rest (result ++ hi.reverse)
        else
          match goSliceFrom n.children childIdx with
          | .error msg => .error msg
          | .ok hi => .ok (result ++ hi.reverse)

/-- RxNode.lowerSiblingsDFS from radix.go, verbatim: the branch for an
absent child slices children[:childIdx-1] (with childIdx-1 a Go int),
which panics when childIdx is 0 and otherwise skips one child; the branch
for a present child appends children[:childIdx] without reversing. -/
def RxNode.lowerSiblingsDFS : Nat → RxNode α → List Nat → List (RxNode α) → Res (List (RxNode α))
  | 0, _, _, _ => .error "loop fuel exhausted"
  | fuel + 1, n, ks, result =>
    match cmpExtra n.extraChars ks with
    | .error msg => .error msg
    | .ok .gt => .ok result
    | .ok .lt => .ok (result ++ [n])
    | .ok .eq =>
      match ks.drop n.extraChars.length with
      | [] => .ok (result ++ [n])
      | s :: rest =>
        let childIdx := getChildIdx n.bitmap s
        if tstBit n.bitmap s then
          match goSliceTo n.children (childIdx : Int) with
          | .error msg => .error msg
          | .ok lo =>
            match listGet n.children childIdx with
            | .error msg => .error msg
            | .ok child => child.lowerSiblingsDFS fuel rest (result ++ lo)
        else
          match goSliceTo n.children ((childIdx : Int) - 1) with
          | .error msg => .error msg
          | .ok lo => .ok (result ++ lo)

/-- RxNode.higherEntries from radix.go: reverse iteration over the
harvested sibling nodes (highest to lowest), concatenating the leaves of
each. -/
def RxNode.higherEntries (n : RxNode α) (ks : List Nat) : Res (List (Entry α)) :=
  match n.higherSiblingsDFS (ks.length + 1) ks [] with
  | .error msg => .error msg
  | .ok nodes => .ok (nodes.reverse.flatMap (fun m => m.getAllLeaves))

/-- RxNode.lowerEntries from radix.go: forward iteration over the
harvested sibling nodes (lowest to highest), concatenating the leaves of
each. -/
def RxNode.lowerEntries (n : RxNode α) (ks : List Nat) : Res (List (Entry α)) :=
  match n.lowerSiblingsDFS (ks.length + 1) ks [] with
  | .error msg => .error msg
  | .ok nodes => .ok (nodes.flatMap (fun m => m.getAllLeaves))

/-- Middle loop of RxNode.rangeEntries: getAllLeaves of every existing
child whose symbol lies strictly between the two diverging symbols,
embedded with an iteration count (the loop runs from i upward cnt
times). -/
def RxNode.midLeaves : RxNode α → Nat → Nat → Res (List (Entry α))
  | _, _, 0 => .ok []
  | n, i, cnt + 1 =>
    if tstBit n.bitmap i then
      match listGet n.children (getChildIdx n.bitmap i) with
      | .error msg => .error msg
      | .ok child =>
        match n.midLeaves (i + 1) cnt with
        | .error msg => .error msg
        | .ok restL => .ok (child.getAllLeaves ++ restL)
    else n.midLeaves (i + 1) cnt

/-- Outcome of the extraChars scan at the head of RxNode.rangeEntries. -/
inductive ScanOut : Type where
  | through | empty | all | higher | lower
deriving DecidableEq, Repr

/-- The extraChars loop of RxNode.rangeEntries: five-way decision per
compressed symbol against the two bounds; the final fall-through (continue
in Go) is unreachable but embedded faithfully. -/
def rangeExtraScan : List Nat → List Nat → List Nat → Res ScanOut
  | [], _, _ => .ok .through
  | _ :: _, [], _ => .error "index out of range"
  | _ :: _, _ :: _, [] => .error "index out of range"
  | c :: cs, f :: fs, t :: ts =>
    if f = t ∧ t = c then rangeExtraScan cs fs ts
    else if f = t then .ok .empty
    else if f < c ∧ c < t then .ok .all
    else if c < f ∨ t < c then .ok .empty
    else if c = f then .ok .higher
    else if c = t then .ok .lower
    else rangeExtraScan cs fs ts

/-- RxNode.rangeEntries from radix.go: entries with keys between the two
bounds, inclusive; descends while the bounds agree and at the diverging
depth concatenates the higher-part, the full middle subtrees and the
lower-part. -/
def RxNode.rangeEntries : Nat → RxNode α → List Nat → List Nat → Res (List (Entry α))
  | 0, _, _, _ => .error "loop fuel exhausted"
  | fuel + 1, n, fs, ts =>
    match rangeExtraScan n.extraChars fs ts with
    | .error msg => .error msg
    | .ok .empty => .ok []
    | .ok .all => .ok n.getAllLeaves
    | .ok .higher => n.higherEntries fs
    | .ok .lower => n.lowerEntries ts
    | .ok .through =>
      match fs.drop n.extraChars.length, ts.drop n.extraChars.length with
      | [], _ =>
        match n.entry with
        | some e => .ok [e]
        | none => .error "nil dereference"
      | _ :: _, [] => .error "index out of range"
      | f :: frest, t :: trest =>
        if f = t then
          if tstBit n.bitmap t then
            match listGet n.children (getChildIdx n.bitmap t) with
            | .error msg => .error msg
            | .ok child => child.rangeEntries fuel frest trest
          else .ok []
        else
          match
            ((if tstBit n.bitmap f then
              match listGet n.children (getChildIdx n.bitmap f) with
              | .error msg => .error msg
              | .ok fromNode => fromNode.higherEntries frest
            else .ok []) : Res (List (Entry α))) with
          | .error msg => .error msg
          | .ok r1 =>
            match n.midLeaves (f + 1) (t - (f + 1)) with
            | .error msg => .error msg
            | .ok r2 =>
              match
                ((if tstBit n.bitmap t then
                  match listGet n.children (getChildIdx n.bitmap t) with
                  | .error msg => .error msg
                  | .ok toNode => toNode.lowerEntries trest
                else .ok []) : Res (List (Entry α))) with
              | .error msg => .error msg
              | .ok r3 => .ok (r1 ++ r2 ++ r3)

/-- Stream from streams.go: root node and the entry of the last
successful Put (zero value: MinKey with the default payload). -/
structure Stream (α : Type) where
  root : RxNode α
  LastEntry : Entry α

/-- Stream.Put from streams.go: reject keys that are minimal or not
greater than the last entry key; otherwise create the node for the key,
store the entry in it and update LastEntry.  The returned pair is the
state after the call together with the returned error. -/
def Stream.Put (s : Stream α) (key : Key) (val : α) : Stream α × Res Unit :=
  if key.IsMin || !(key.GreaterThan s.LastEntry.Key) then
    (s, .error "key too low")
  else
    match s.root.createP (key.internalRepr.length + 1) key.internalRepr ⟨key, val⟩ with
    | .error msg => (s, .error msg)
    | .ok root2 => (⟨root2, ⟨key, val⟩⟩, .ok ())

/-- Stream.Search from streams.go: longestCommonPrefix, and on an exact
hit (failIdx = -1) the value of the entry of the best match. -/
def Stream.Search (s : Stream α) (key : Key) : Res (Option α) :=
  match s.root.longestCommonPfx (key.internalRepr.length + 1) 0 key.internalRepr with
  | .error msg => .error msg
  | .ok (node, failIdx, _) =>
    if failIdx = -1 then
      match node.entry with
      | some e => .ok (some e.Val)
      | none => .error "nil dereference"
    else .ok none

/-- Stream.Range from streams.go: empty unless fromKey is strictly lesser
than toKey; the toKey = MaxKey case uses higherEntries, the general case
rangeEntries. -/
def Stream.Range (s : Stream α) (fromKey toKey : Key) : Res (List (Entry α)) :=
  if !(fromKey.LesserThan toKey) then .ok []
  else if toKey.IsMax then s.root.higherEntries fromKey.internalRepr
  else s.root.rangeEntries (fromKey.internalRepr.length + 1)
    fromKey.internalRepr toKey.internalRepr

/-- The zero value of Stream in Go: empty root, LastEntry with the zero
key MinKey and the zero payload (nil, modelled by a supplied default). -/
def emptyStream (d : α) : Stream α := ⟨.mk none 0 [] [], ⟨MinKey, d⟩⟩

/-- A stream built by a sequence of Put operations from the zero value;
a rejected Put leaves the state unchanged, as in the source. -/
def putList (d : α) (ops : List (Key × α)) : Stream α :=
  ops.foldl (fun s kv => (s.Put kv.1 kv.2).1) (emptyStream d)

/-! Arithmetic facts about the base-64 codec. -/

theorem foldl_digits (ds : List Nat) (a : Nat) :
    ds.foldl (fun a d => a * 64 + d) a = a * 64 ^ ds.length + ofDigits ds := by
  induction ds generalizing a with
  | nil => simp [ofDigits]
  | cons d ds ih =>
    show ds.foldl _ (a * 64 + d) = _
    rw [ih (a * 64 + d)]
    have hd : ofDigits (d :: ds) = d * 64 ^ ds.length + ofDigits ds := by
      show ds.foldl _ (0 * 64 + d) = _
      rw [ih (0 * 64 + d)]; ring
    rw [hd]; simp [List.length_cons]; ring

theorem ofDigits_cons (d : Nat) (ds : List Nat) :
    ofDigits (d :: ds) = d * 64 ^ ds.length + ofDigits ds := by
  show ds.foldl _ (0 * 64 + d) = _
  rw [foldl_digits]; ring

theorem ofDigits_append (xs ys : List Nat) :
    ofDigits (xs ++ ys) = ofDigits xs * 64 ^ ys.length + ofDigits ys := by
  unfold ofDigits
  rw [List.foldl_append, foldl_digits]
  rfl

theorem ofDigits_lt (ds : List Nat) (h : ∀ d ∈ ds, d < 64) :
    ofDigits ds < 64 ^ ds.length := by
  induction ds with
  | nil => simp [ofDigits]
  | cons d ds ih =>
    rw [ofDigits_cons]
    have hd : d < 64 := h d (by simp)
    have hds : ofDigits ds < 64 ^ ds.length := ih (fun x hx => h x (by simp [hx]))
    have : d * 64 ^ ds.length + ofDigits ds < (d + 1) * 64 ^ ds.length := by
      nlinarith [pow_pos (by norm_num : (0:ℕ) < 64) ds.length]
    calc d * 64 ^ ds.length + ofDigits ds < (d + 1) * 64 ^ ds.length := this
      _ ≤ 64 * 64 ^ ds.length := by
          have : d + 1 ≤ 64 := hd
          exact Nat.mul_le_mul_right _ this
      _ = 64 ^ (ds.length + 1) := by ring
      _ = 64 ^ (d :: ds).length := by simp

theorem ofDigits_replicate_zero (n : Nat) : ofDigits (List.replicate n 0) = 0 := by
  induction n with
  | zero => simp [ofDigits]
  | succ n ih =>
    rw [List.replicate_succ, ofDigits_cons, ih]; simp

theorem ofDigits_zeroPad (w : Nat) (ds : List Nat) :
    ofDigits (zeroPad w ds) = ofDigits ds := by
  unfold zeroPad
  rw [ofDigits_append, ofDigits_replicate_zero]
  simp

theorem toBase64Aux_spec (fuel : Nat) :
    ∀ val, val < 64 ^ (fuel + 1) →
      ofDigits (toBase64Aux fuel val) = val ∧
      (∀ d ∈ toBase64Aux fuel val, d < 64) ∧
      toBase64Aux fuel val ≠ [] := by
  induction fuel with
  | zero =>
    intro val h
    simp only [toBase64Aux]
    refine ⟨by simp [ofDigits], ?_, by simp⟩
    intro d hd
    have hd2 : d = val := by simpa using hd
    subst hd2
    simpa using h
  | succ fuel ih =>
    intro val h
    by_cases hv : val < 64
    · simp only [toBase64Aux, if_pos hv]
      refine ⟨by simp [ofDigits], ?_, by simp⟩
      intro d hd; simp at hd; omega
    · simp only [toBase64Aux, if_neg hv]
      have hdiv : val / 64 < 64 ^ (fuel + 1) := by
        rw [Nat.div_lt_iff_lt_mul (by norm_num : 0 < 64)]
        calc val < 64 ^ (fuel + 1 + 1) := h
          _ = 64 ^ (fuel + 1) * 64 := by ring
      obtain ⟨h1, h2, _⟩ := ih (val / 64) hdiv
      refine ⟨?_, ?_, by simp⟩
      · rw [ofDigits_append, h1]
        simp [ofDigits_cons, ofDigits]
        omega
      · intro d hd
        rcases List.mem_append.mp hd with hA | hB
        · exact h2 d hA
        · simp at hB; subst hB; exact Nat.mod_lt _ (by norm_num)

theorem toBase64Aux_len (fuel : Nat) :
    ∀ val m, 1 ≤ m → val < 64 ^ m → m ≤ fuel + 1 →
      (toBase64Aux fuel val).length ≤ m := by
  induction fuel with
  | zero => intro val m h1 _ _; simp [toBase64Aux]; omega
  | succ fuel ih =>
    intro val m h1 h2 h3
    by_cases hv : val < 64
    · simp [toBase64Aux, if_pos hv]; omega
    · simp only [toBase64Aux, if_neg hv]
      have hm : 2 ≤ m := by
        by_contra hcon
        have hm1 : m = 1 := by omega
        subst hm1
        simp at h2
        omega
      have hpow : (64:ℕ) ^ m = 64 ^ (m - 1) * 64 := by
        conv_lhs => rw [show m = (m - 1) + 1 by omega]
        rw [pow_succ]
      have hdiv : val / 64 < 64 ^ (m - 1) := by
        rw [Nat.div_lt_iff_lt_mul (by norm_num : 0 < 64)]
        omega
      have := ih (val / 64) (m - 1) (by omega) hdiv (by omega)
      simp only [List.length_append, List.length_cons, List.length_nil]
      omega

theorem u64_lt_64_pow_11 : U64 ≤ 64 ^ 11 := by
  unfold U64; norm_num

theorem toBase64Digits_spec (val : Nat) (h : val < U64) :
    ofDigits (toBase64Digits val) = val ∧
    (∀ d ∈ toBase64Digits val, d < 64) ∧
    (toBase64Digits val).length ≤ 11 := by
  have h12 : val < 64 ^ (11 + 1) := by
    have := u64_lt_64_pow_11
    have : (64:ℕ) ^ 11 < 64 ^ 12 := by norm_num
    omega
  obtain ⟨h1, h2, _⟩ := toBase64Aux_spec 11 val h12
  refine ⟨h1, h2, ?_⟩
  exact toBase64Aux_len 11 val 11 (by norm_num) (by have := u64_lt_64_pow_11; omega) (by norm_num)

theorem zeroPad_length (w : Nat) (ds : List Nat) (h : ds.length ≤ w) :
    (zeroPad w ds).length = w := by
  unfold zeroPad; simp; omega

theorem zeroPad_digits (w : Nat) (ds : List Nat) (h : ∀ d ∈ ds, d < 64) :
    ∀ d ∈ zeroPad w ds, d < 64 := by
  intro d hd
  unfold zeroPad at hd
  rcases List.mem_append.mp hd with hA | hB
  · have := List.eq_of_mem_replicate hA; omega
  · exact h d hB

/-- The padded 11-symbol encoding of one uint64 half of a key. -/
def enc11 (val : Nat) : List Nat := zeroPad 11 (toBase64Digits val)

theorem enc11_length (val : Nat) (h : val < U64) : (enc11 val).length = 11 :=
  zeroPad_length 11 _ (toBase64Digits_spec val h).2.2

theorem enc11_digits (val : Nat) (h : val < U64) : ∀ d ∈ enc11 val, d < 64 :=
  zeroPad_digits 11 _ (toBase64Digits_spec val h).2.1

theorem enc11_value (val : Nat) (h : val < U64) : ofDigits (enc11 val) = val := by
  unfold enc11
  rw [ofDigits_zeroPad]
  exact (toBase64Digits_spec val h).1

theorem internalRepr_eq (k : Key) : k.internalRepr = enc11 k.LeftNr ++ enc11 k.RightNr := rfl

theorem internalRepr_length (k : Key) (h : k.Wf) : k.internalRepr.length = 22 := by
  rw [internalRepr_eq]
  simp [enc11_length _ h.1, enc11_length _ h.2]

theorem internalRepr_digits (k : Key) (h : k.Wf) : ∀ d ∈ k.internalRepr, d < 64 := by
  rw [internalRepr_eq]
  intro d hd
  rcases List.mem_append.mp hd with hA | hB
  · exact enc11_digits _ h.1 d hA
  · exact enc11_digits _ h.2 d hB

/-! Lexicographic comparison of equal-length digit lists agrees with the
numeric comparison of their values. -/

theorem lexLt_cons (a b : Nat) (as bs : List Nat) :
    lexLt (a :: as) (b :: bs) = true ↔ (a < b ∨ (a = b ∧ lexLt as bs = true)) := by
  show (decide (a < b) || (decide (a = b) && lexLt as bs)) = true ↔ _
  simp [Bool.or_eq_true, Bool.and_eq_true]

theorem lexLt_iff_value (as : List Nat) :
    ∀ bs, as.length = bs.length → (∀ d ∈ as, d < 64) → (∀ d ∈ bs, d < 64) →
      (lexLt as bs = true ↔ ofDigits as < ofDigits bs) := by
  induction as with
  | nil =>
    intro bs hlen _ _
    have : bs = [] := by
      cases bs with
      | nil => rfl
      | cons b bs => simp at hlen
    subst this
    simp [lexLt]
  | cons a as ih =>
    intro bs hlen ha hb
    cases bs with
    | nil => simp at hlen
    | cons b bs =>
      have hlen2 : as.length = bs.length := by simpa using hlen
      have has : ∀ d ∈ as, d < 64 := fun d hd => ha d (by simp [hd])
      have hbs : ∀ d ∈ bs, d < 64 := fun d hd => hb d (by simp [hd])
      have hA := ofDigits_lt as has
      have hB := ofDigits_lt bs hbs
      rw [hlen2] at hA
      have hP : (0:ℕ) < 64 ^ bs.length := pow_pos (by norm_num) bs.length
      rw [ofDigits_cons, ofDigits_cons, hlen2, lexLt_cons]
      rcases Nat.lt_trichotomy a b with hab | hab | hab
      · have hval : a * 64 ^ bs.length + ofDigits as < b * 64 ^ bs.length + ofDigits bs := by
          have hstep : (a + 1) * 64 ^ bs.length ≤ b * 64 ^ bs.length :=
            Nat.mul_le_mul_right _ hab
          have hexp : (a + 1) * 64 ^ bs.length = a * 64 ^ bs.length + 64 ^ bs.length := by
            ring
          omega
        exact ⟨fun _ => hval, fun _ => Or.inl hab⟩
      · subst hab
        have hiff := ih bs hlen2 has hbs
        constructor
        · rintro (h | ⟨_, h⟩)
          · omega
          · have := hiff.mp h; omega
        · intro h
          have : ofDigits as < ofDigits bs := by omega
          exact Or.inr ⟨rfl, hiff.mpr this⟩
      · have hval : ¬ a * 64 ^ bs.length + ofDigits as < b * 64 ^ bs.length + ofDigits bs := by
          have hstep : (b + 1) * 64 ^ bs.length ≤ a * 64 ^ bs.length :=
            Nat.mul_le_mul_right _ (by omega)
          have hexp : (b + 1) * 64 ^ bs.length = b * 64 ^ bs.length + 64 ^ bs.length := by
            ring
          omega
        constructor
        · rintro (h | ⟨h, _⟩) <;> omega
        · intro h; exact absurd h hval

theorem lexLt_append_iff (p : List Nat) :
    ∀ r q s, p.length = r.length →
      (lexLt (p ++ q) (r ++ s) = true ↔
        (lexLt p r = true ∨ (p = r ∧ lexLt q s = true))) := by
  induction p with
  | nil =>
    intro r q s hlen
    have : r = [] := by
      cases r with
      | nil => rfl
      | cons x xs => simp at hlen
    subst this
    simp [lexLt]
  | cons a p ih =>
    intro r q s hlen
    cases r with
    | nil => simp at hlen
    | cons b r =>
      have hlen2 : p.length = r.length := by simpa using hlen
      show lexLt (a :: (p ++ q)) (b :: (r ++ s)) = true ↔ _
      rw [lexLt_cons, lexLt_cons, ih r q s hlen2]
      constructor
      · rintro (h | ⟨hab, (h | ⟨hpr, h⟩)⟩)
        · exact Or.inl (Or.inl h)
        · exact Or.inl (Or.inr ⟨hab, h⟩)
        · exact Or.inr ⟨by rw [hab, hpr], h⟩
      · rintro ((h | ⟨hab, h⟩) | ⟨heq, h⟩)
        · exact Or.inl h
        · exact Or.inr ⟨hab, Or.inl h⟩
        · have hab : a = b := by injection heq
          have hpr : p = r := by injection heq
          exact Or.inr ⟨hab, Or.inr ⟨hpr, h⟩⟩

theorem lesserThan_iff_lt_pair (a b : Key) :
    a.LesserThan b = true ↔
      (a.LeftNr < b.LeftNr ∨ (a.LeftNr = b.LeftNr ∧ a.RightNr < b.RightNr)) := by
  unfold Key.LesserThan
  by_cases h1 : a.LeftNr < b.LeftNr
  · simp [h1]
  · simp only [if_neg h1]
    by_cases h2 : a.LeftNr = b.LeftNr ∧ a.RightNr < b.RightNr
    · simp [h2]
    · simp [h2, h1]

theorem enc11_inj (x y : Nat) (hx : x < U64) (hy : y < U64) :
    enc11 x = enc11 y ↔ x = y := by
  constructor
  · intro h
    have := enc11_value x hx
    rw [h, enc11_value y hy] at this
    omega
  · intro h; rw [h]

theorem lesserThan_iff_lexLt (a b : Key) (ha : a.Wf) (hb : b.Wf) :
    a.LesserThan b = true ↔ lexLt a.internalRepr b.internalRepr = true := by
  rw [internalRepr_eq, internalRepr_eq,
    lexLt_append_iff _ _ _ _ (by rw [enc11_length _ ha.1, enc11_length _ hb.1]),
    lesserThan_iff_lt_pair]
  have hLL : lexLt (enc11 a.LeftNr) (enc11 b.LeftNr) = true ↔ a.LeftNr < b.LeftNr := by
    rw [lexLt_iff_value _ _ (by rw [enc11_length _ ha.1, enc11_length _ hb.1])
      (enc11_digits _ ha.1) (enc11_digits _ hb.1),
      enc11_value _ ha.1, enc11_value _ hb.1]
  have hRR : lexLt (enc11 a.RightNr) (enc11 b.RightNr) = true ↔ a.RightNr < b.RightNr := by
    rw [lexLt_iff_value _ _ (by rw [enc11_length _ ha.2, enc11_length _ hb.2])
      (enc11_digits _ ha.2) (enc11_digits _ hb.2),
      enc11_value _ ha.2, enc11_value _ hb.2]
  have hEq : enc11 a.LeftNr = enc11 b.LeftNr ↔ a.LeftNr = b.LeftNr :=
    enc11_inj _ _ ha.1 hb.1
  constructor
  · rintro (h | ⟨h1, h2⟩)
    · exact Or.inl (hLL.mpr h)
    · exact Or.inr ⟨hEq.mpr h1, hRR.mpr h2⟩
  · rintro (h | ⟨h1, h2⟩)
    · exact Or.inl (hLL.mp h)
    · exact Or.inr ⟨hEq.mp h1, hRR.mp h2⟩

/-! The key string parser, parseEntryKey from keys.go.  Strings are
embedded as lists of characters (Go iterates runes); the wall clock read
by the full-wildcard branch is an explicit parameter. -/

/-- MaxUint64base from parseEntryKey: MaxUint64 / 10. -/
def MaxUint64base : Nat := MaxUint64 / 10

/-- The addDigitToTotal closure of parseEntryKey: reject non-digits,
guard against overflow of the times-ten step, and detect wrap-around of
the digit addition. -/
def addDigitToTotal (total : Nat) (char : Char) : Res Nat :=
  if char.toNat < 48 ∨ char.toNat > 57 then .error "invalid stream entry key"
  else if total > MaxUint64base then .error "integer overflow"
  else
    let newBase := (total * 10) % U64
    let newTotal := (newBase + (char.toNat - 48)) % U64
    if newTotal < newBase then .error "integer overflow"
    else .ok newTotal

/-- First loop of parseEntryKey: accumulate digits of the first number
until the first hyphen; falling off the end of the string means the
hyphen is missing. -/
def parseLoop1 : Nat → List Char → Res (Nat × List Char)
  | _, [] => .error "invalid stream entry key: no hyphen"
  | result1, c :: cs =>
    if c = '-' then .ok (result1, cs)
    else
      match addDigitToTotal result1 c with
      | .error msg => .error msg
      | .ok r => parseLoop1 r cs

/-- Second loop of parseEntryKey: accumulate digits of the second number;
a star stops the loop and replaces the result with the wildcard value
derived from the last key used. -/
def parseLoop2 (lastKeyUsed : Key) (result1 : Nat) : Nat → List Char → Res Nat
  | result2, [] => .ok result2
  | result2, c :: cs =>
    if c = '*' then
      .ok (if result1 = lastKeyUsed.LeftNr then (lastKeyUsed.RightNr + 1) % U64 else 0)
    else
      match addDigitToTotal result2 c with
      | .error msg => .error msg
      | .ok r => parseLoop2 lastKeyUsed result1 r cs

/-- parseEntryKey from keys.go; now is the value of
uint64(time.Now().UnixMilli()) read by the full-wildcard branch. -/
def parseEntryKey (now : Nat) (key : List Char) (lastKeyUsed : Key) : Res (Nat × Nat) :=
  if key = ['-'] then .ok (0, 0)
  else if key = ['+'] then .ok (MaxUint64, MaxUint64)
  else if key = ['*'] then
    let timestamp := now % U64
    .ok (timestamp,
      if timestamp = lastKeyUsed.LeftNr then (lastKeyUsed.RightNr + 1) % U64 else 0)
  else
    match parseLoop1 0 key with
    | .error msg => .error msg
    | .ok (result1, rest) =>
      match parseLoop2 lastKeyUsed result1 0 rest with
      | .error msg => .error msg
      | .ok result2 => .ok (result1, result2)

/-- Decimal value of a digit string continued from an accumulator. -/
def decValFrom (a : Nat) (ds : List Char) : Nat :=
  ds.foldl (fun a c => a * 10 + (c.toNat - 48)) a

/-- Decimal value of a digit string. -/
def decVal (ds : List Char) : Nat := decValFrom 0 ds

theorem decValFrom_ge (ds : List Char) : ∀ a, a ≤ decValFrom a ds := by
  induction ds with
  | nil => intro a; simp [decValFrom]
  | cons c cs ih =>
    intro a
    show a ≤ decValFrom (a * 10 + (c.toNat - 48)) cs
    calc a ≤ a * 10 + (c.toNat - 48) := by omega
      _ ≤ _ := ih _

theorem decValFrom_cons (a : Nat) (c : Char) (cs : List Char) :
    decValFrom a (c :: cs) = decValFrom (a * 10 + (c.toNat - 48)) cs := rfl

theorem U64_eq : U64 = 18446744073709551616 := by norm_num [U64]

theorem MaxUint64_eq : MaxUint64 = 18446744073709551615 := by
  norm_num [MaxUint64, U64]

theorem MaxUint64base_eq : MaxUint64base = 1844674407370955161 := by
  norm_num [MaxUint64base, MaxUint64, U64]

theorem addDigitToTotal_digit (total : Nat) (c : Char) (hc : c.isDigit)
    (ht : total < U64) :
    addDigitToTotal total c =
      if total * 10 + (c.toNat - 48) < U64 then .ok (total * 10 + (c.toNat - 48))
      else .error "integer overflow" := by
  have hU := U64_eq
  have hB := MaxUint64base_eq
  have hc2 : 48 ≤ c.toNat ∧ c.toNat ≤ 57 := by
    unfold Char.isDigit at hc
    constructor
    · have := (decide_eq_true_eq).mp (Bool.and_elim_left hc)
      simpa using this
    · have := (decide_eq_true_eq).mp (Bool.and_elim_right hc)
      simpa using this
  have hd : c.toNat - 48 ≤ 9 := by omega
  unfold addDigitToTotal
  rw [if_neg (by omega)]
  by_cases hbig : total > MaxUint64base
  · rw [if_pos hbig, if_neg (by omega)]
  · rw [if_neg hbig]
    have hb : total * 10 < U64 := by omega
    have hmod : (total * 10) % U64 = total * 10 := Nat.mod_eq_of_lt hb
    simp only [hmod]
    by_cases hov : total * 10 + (c.toNat - 48) < U64
    · have hmod2 : (total * 10 + (c.toNat - 48)) % U64 = total * 10 + (c.toNat - 48) :=
        Nat.mod_eq_of_lt hov
      simp only [hmod2]
      rw [if_neg (by omega), if_pos hov]
    · have hmod2 : (total * 10 + (c.toNat - 48)) % U64 = total * 10 + (c.toNat - 48) - U64 := by
        rw [U64_eq] at hov ht ⊢
        omega
      simp only [hmod2]
      rw [if_pos (by omega), if_neg hov]

theorem parseLoop1_digits (ds1 : List Char) :
    ∀ total rest, (∀ c ∈ ds1, c.isDigit) → total < U64 →
      parseLoop1 total (ds1 ++ '-' :: rest) =
        if decValFrom total ds1 < U64 then .ok (decValFrom total ds1, rest)
        else .error "integer overflow" := by
  induction ds1 with
  | nil =>
    intro total rest _ ht
    simp [parseLoop1, decValFrom, if_pos ht]
  | cons c cs ih =>
    intro total rest hdig ht
    have hc : c.isDigit := hdig c (by simp)
    have hne : ¬ c = '-' := by
      intro h; subst h; simp [Char.isDigit] at hc
    show parseLoop1 total (c :: (cs ++ '-' :: rest)) = _
    unfold parseLoop1
    rw [if_neg hne, addDigitToTotal_digit total c hc ht]
    by_cases hov : total * 10 + (c.toNat - 48) < U64
    · rw [if_pos hov]
      show parseLoop1 (total * 10 + (c.toNat - 48)) (cs ++ '-' :: rest) = _
      rw [ih _ rest (fun x hx => hdig x (by simp [hx])) hov, decValFrom_cons]
    · rw [if_neg hov]
      rw [decValFrom_cons, if_neg]
      have := decValFrom_ge cs (total * 10 + (c.toNat - 48))
      omega

theorem parseLoop2_digits (ds2 : List Char) (lastKeyUsed : Key) (result1 : Nat) :
    ∀ total, (∀ c ∈ ds2, c.isDigit) → total < U64 →
      parseLoop2 lastKeyUsed result1 total ds2 =
        if decValFrom total ds2 < U64 then .ok (decValFrom total ds2)
        else .error "integer overflow" := by
  induction ds2 with
  | nil =>
    intro total _ ht
    simp [parseLoop2, decValFrom, if_pos ht]
  | cons c cs ih =>
    intro total hdig ht
    have hc : c.isDigit := hdig c (by simp)
    have hne : ¬ c = '*' := by
      intro h; subst h; simp [Char.isDigit] at hc
    unfold parseLoop2
    rw [if_neg hne, addDigitToTotal_digit total c hc ht]
    by_cases hov : total * 10 + (c.toNat - 48) < U64
    · rw [if_pos hov]
      show parseLoop2 lastKeyUsed result1 (total * 10 + (c.toNat - 48)) cs = _
      rw [ih _ (fun x hx => hdig x (by simp [hx])) hov, decValFrom_cons]
    · rw [if_neg hov]
      rw [decValFrom_cons, if_neg]
      have := decValFrom_ge cs (total * 10 + (c.toNat - 48))
      omega

/-! Ghost-level machinery: a reference lookup function on tries, the
well-formedness invariant of tries built by Put, and arithmetic facts
about the bitmap encoding. -/

/-- Remove xs as a leading segment of l when it is one. -/
def dropPfx : List Nat → List Nat → Option (List Nat)
  | [], l => some l
  | _ :: _, [] => none
  | c :: cs, k :: ks => if c = k then dropPfx cs ks else none

theorem dropPfx_eq_some {xs : List Nat} :
    ∀ {l r : List Nat}, dropPfx xs l = some r ↔ l = xs ++ r := by
  induction xs with
  | nil =>
    intro l r
    constructor
    · intro h
      simpa [dropPfx, eq_comm] using h
    · intro h
      simp [dropPfx, h]
  | cons c cs ih =>
    intro l r
    cases l with
    | nil => simp [dropPfx]
    | cons k ks =>
      by_cases h : c = k
      · subst h
        simp only [dropPfx, if_pos rfl, List.cons_append, List.cons.injEq, true_and]
        exact ih
      · simp only [dropPfx, if_neg h, List.cons_append]
        constructor
        · intro hc; cases hc
        · intro hc
          exact absurd (List.head_eq_of_cons_eq hc).symm h

theorem dropPfx_length {xs l r : List Nat} (h : dropPfx xs l = some r) :
    l.length = xs.length + r.length := by
  rw [dropPfx_eq_some] at h
  subst h
  simp

/-- Reference lookup in the trie: consume the compression symbols, then
follow the child for the next symbol.  This is the specification-level
meaning of a trie; longestCommonPrefix and create are proved against
it. -/
def mem (n : RxNode α) (ks : List Nat) : Option (Entry α) :=
  match h : dropPfx n.extraChars ks with
  | none => none
  | some [] => n.entry
  | some (s :: rest) =>
    if tstBit n.bitmap s then
      match n.children[getChildIdx n.bitmap s]? with
      | some c => mem c rest
      | none => none
    else none
termination_by ks.length
decreasing_by
  have := dropPfx_length h
  simp only [List.length_cons] at this
  omega

/-! Bit arithmetic for the bitmap child table. -/

theorem tstBit_true_iff (b s : Nat) : tstBit b s = true ↔ (b / 2 ^ s) % 2 = 1 := by
  simp [tstBit]

theorem tstBit_false_iff (b s : Nat) : tstBit b s = false ↔ (b / 2 ^ s) % 2 = 0 := by
  have := Nat.mod_two_eq_zero_or_one (b / 2 ^ s)
  simp only [tstBit, decide_eq_false_iff_not]
  omega

theorem tstBit_add_pow_self {b s : Nat} (h : tstBit b s = false) :
    tstBit (b + 2 ^ s) s = true := by
  rw [tstBit_false_iff] at h
  rw [tstBit_true_iff, Nat.add_div_right _ (Nat.pos_pow_of_pos s (by omega))]
  omega

theorem tstBit_add_pow_lt {b s i : Nat} (hi : i < s) :
    tstBit (b + 2 ^ s) i = tstBit b i := by
  have hsplit : (2:ℕ) ^ s = 2 * 2 ^ (s - i - 1) * 2 ^ i := by
    have h1 : 2 * 2 ^ (s - i - 1) * 2 ^ i = 2 ^ (s - i - 1 + 1 + i) := by
      rw [pow_add, pow_succ]
      ring
    rw [h1]
    congr 1
    omega
  have hdiv : (b + 2 ^ s) / 2 ^ i = b / 2 ^ i + 2 * 2 ^ (s - i - 1) := by
    rw [hsplit, Nat.add_mul_div_right _ _ (Nat.pos_pow_of_pos i (by omega))]
  unfold tstBit
  rw [hdiv, Nat.add_mul_mod_self_left]

theorem tstBit_add_pow_gt {b s i : Nat} (hs : tstBit b s = false) (hi : s < i) :
    tstBit (b + 2 ^ s) i = tstBit b i := by
  have hmod : b % 2 ^ (s + 1) = b % 2 ^ s := by
    rw [pow_succ, Nat.mod_mul]
    rw [tstBit_false_iff] at hs
    rw [hs]
    simp
  have hr : b % 2 ^ s < 2 ^ s := Nat.mod_lt _ (Nat.pos_pow_of_pos s (by omega))
  have hq : (b + 2 ^ s) / 2 ^ (s + 1) = b / 2 ^ (s + 1) := by
    conv_lhs => rw [← Nat.div_add_mod b (2 ^ (s + 1))]
    rw [hmod]
    have hlt : b % 2 ^ s + 2 ^ s < 2 ^ (s + 1) := by
      rw [pow_succ]
      omega
    rw [Nat.add_assoc, Nat.add_comm (2 ^ (s + 1) * (b / 2 ^ (s + 1))),
      Nat.add_mul_div_left _ _ (Nat.pos_pow_of_pos (s + 1) (by omega)),
      Nat.div_eq_of_lt hlt]
    omega
  have hsplit : (2:ℕ) ^ i = 2 ^ (s + 1) * 2 ^ (i - s - 1) := by
    rw [← pow_add]
    congr 1
    omega
  unfold tstBit
  rw [hsplit, ← Nat.div_div_eq_div_mul, ← Nat.div_div_eq_div_mul, hq]

/-- The ascending list of positions below s where b has a set bit. -/
def bitsBelow (b s : Nat) : List Nat := (List.range s).filter (fun i => tstBit b i)

/-- The ascending list of set-bit positions of a 64-bit bitmap. -/
def bitsList (b : Nat) : List Nat := bitsBelow b 64

theorem getChildIdx_eq (b s : Nat) : getChildIdx b s = (bitsBelow b s).length := by
  unfold getChildIdx bitsBelow
  by_cases h : s = 0
  · subst h; simp
  · rw [if_neg h]

theorem bitsBelow_succ (b s : Nat) :
    bitsBelow b (s + 1) = bitsBelow b s ++ if tstBit b s then [s] else [] := by
  unfold bitsBelow
  rw [List.range_succ, List.filter_append]
  congr 1
  by_cases h : tstBit b s <;> simp [h]

theorem bitsBelow_congr {b b2 : Nat} (t : Nat) (h : ∀ i < t, tstBit b i = tstBit b2 i) :
    bitsBelow b t = bitsBelow b2 t := by
  unfold bitsBelow
  apply List.filter_congr
  intro i hi
  exact h i (List.mem_range.mp hi)

theorem bitsBelow_mono (b : Nat) {s t : Nat} (h : s ≤ t) :
    ∃ u, bitsBelow b t = bitsBelow b s ++ u := by
  induction t with
  | zero =>
    have : s = 0 := by omega
    subst this
    exact ⟨[], by simp⟩
  | succ t ih =>
    by_cases hst : s = t + 1
    · subst hst; exact ⟨[], by simp⟩
    · obtain ⟨u, hu⟩ := ih (by omega)
      refine ⟨u ++ (if tstBit b t then [t] else []), ?_⟩
      rw [bitsBelow_succ, hu, List.append_assoc]

theorem bitsBelow_mem {b t x : Nat} (h : x ∈ bitsBelow b t) :
    x < t ∧ tstBit b x = true := by
  unfold bitsBelow at h
  have h1 := List.mem_filter.mp h
  exact ⟨List.mem_range.mp h1.1, by simpa using h1.2⟩

theorem bitsBelow_sorted (b t : Nat) : (bitsBelow b t).Pairwise (· < ·) := by
  unfold bitsBelow
  exact (List.pairwise_lt_range t).filter _

theorem bitsBelow_get_self {b s t : Nat} (hst : s < t) (h : tstBit b s = true) :
    (bitsBelow b t)[(bitsBelow b s).length]? = some s := by
  obtain ⟨u, hu⟩ := bitsBelow_mono b (show s + 1 ≤ t by omega)
  rw [hu, bitsBelow_succ, h]
  simp only [List.append_assoc]
  rw [List.getElem?_append_right (by omega)]
  simp

theorem bitsBelow_get_lt {b s t : Nat} (i : Nat) (hst : s ≤ t)
    (hi : i < (bitsBelow b s).length) :
    (bitsBelow b t)[i]? = (bitsBelow b s)[i]? := by
  obtain ⟨u, hu⟩ := bitsBelow_mono b hst
  rw [hu, List.getElem?_append, if_pos hi]

/-! Well-formedness of tries built by Put: every leaf sits at conceptual
depth 22 and stores the key whose internal representation is its path,
every inner node has exactly one child per set bitmap bit, in ascending
symbol order. -/

inductive WF {α : Type} : RxNode α → List Nat → Prop where
  | leaf : ∀ (pre extra : List Nat) (e : Entry α),
      (∀ c ∈ extra, c < 64) →
      pre.length + extra.length = 22 →
      e.Key.Wf →
      e.Key.internalRepr = pre ++ extra →
      WF (.mk (some e) 0 extra []) pre
  | node : ∀ (pre extra : List Nat) (bitmap : Nat) (children : List (RxNode α)),
      (∀ c ∈ extra, c < 64) →
      pre.length + extra.length < 22 →
      bitmap < U64 →
      children.length = (bitsList bitmap).length →
      (∀ (i s : Nat) (c : RxNode α), children[i]? = some c →
        (bitsList bitmap)[i]? = some s → WF c (pre ++ extra ++ [s])) →
      WF (.mk none bitmap extra children) pre

theorem WF_extra_digits {n : RxNode α} {pre : List Nat} (h : WF n pre) :
    ∀ c ∈ n.extraChars, c < 64 := by
  cases h with
  | leaf _ _ _ hdig _ _ _ => exact hdig
  | node _ _ _ _ hdig _ _ _ _ => exact hdig

theorem WF_extra_len {n : RxNode α} {pre : List Nat} (h : WF n pre) :
    pre.length + n.extraChars.length ≤ 22 := by
  cases h with
  | leaf _ _ _ _ hlen _ _ => simp [RxNode.extraChars]; omega
  | node _ _ _ _ _ hlen _ _ _ => simp [RxNode.extraChars]; omega

/-- Move a leading part of the compression symbols of a node into its
path: well-formedness only depends on path ++ extraChars. -/
theorem WF_shift {n : RxNode α} {pre x y : List Nat} (hwf : WF n pre)
    (hx : n.extraChars = x ++ y) :
    WF (.mk n.entry n.bitmap y n.children) (pre ++ x) := by
  cases hwf with
  | leaf pre extra e hdig hlen hkwf hkey =>
    simp only [RxNode.extraChars] at hx
    subst hx
    refine WF.leaf _ _ e (fun c hc => hdig c (by simp [hc])) ?_ hkwf ?_
    · simp at hlen ⊢
      omega
    · rw [hkey]
      simp
  | node pre extra bitmap children hdig hlen hb hcl hch =>
    simp only [RxNode.extraChars] at hx
    subst hx
    refine WF.node _ _ bitmap children (fun c hc => hdig c (by simp [hc])) ?_ hb hcl ?_
    · simp at hlen ⊢
      omega
    · intro i s c h1 h2
      have := hch i s c h1 h2
      simpa using this

/-- The child of a well-formed inner node for a set bit s. -/
theorem WF_child {p q : List Nat} {bitmap : Nat} {children : List (RxNode α)}
    (hcl : children.length = (bitsList bitmap).length)
    (hch : ∀ (i s : Nat) (c : RxNode α), children[i]? = some c →
      (bitsList bitmap)[i]? = some s → WF c (p ++ q ++ [s]))
    {s : Nat} (hs : s < 64) (hbit : tstBit bitmap s = true) :
    ∃ c, children[getChildIdx bitmap s]? = some c ∧ WF c (p ++ q ++ [s]) := by
  have hget : (bitsList bitmap)[getChildIdx bitmap s]? = some s := by
    rw [getChildIdx_eq]
    exact bitsBelow_get_self hs hbit
  have hlt : getChildIdx bitmap s < (bitsList bitmap).length := by
    obtain ⟨h, _⟩ := List.getElem?_eq_some_iff.mp hget
    exact h
  have hlt2 : getChildIdx bitmap s < children.length := by omega
  refine ⟨children[getChildIdx bitmap s], ?_, ?_⟩
  · exact List.getElem?_eq_getElem hlt2
  · exact hch _ s _ (List.getElem?_eq_getElem hlt2) hget

/-! Unfolding equations for mem. -/

theorem mem_none {n : RxNode α} {k : List Nat}
    (h : dropPfx n.extraChars k = none) : mem n k = none := by
  unfold mem
  split <;> simp_all

theorem mem_exact {n : RxNode α} {k : List Nat}
    (h : dropPfx n.extraChars k = some []) : mem n k = n.entry := by
  unfold mem
  split <;> simp_all

theorem mem_step {n : RxNode α} {k r : List Nat} {s : Nat}
    (h : dropPfx n.extraChars k = some (s :: r)) :
    mem n k =
      if tstBit n.bitmap s then
        match n.children[getChildIdx n.bitmap s]? with
        | some c => mem c r
        | none => none
      else none := by
  conv_lhs => unfold mem
  split <;> simp_all

/-! Characterization of the walkExtra loop. -/

theorem walkExtra_cons_eq (c : Nat) (cs ks : List Nat) :
    walkExtra (c :: cs) (c :: ks) =
      match walkExtra cs ks with
      | .ok none => .ok none
      | .ok (some i) => .ok (some (i + 1))
      | .error msg => .error msg := by
  conv_lhs => unfold walkExtra
  rw [if_neg (by simp)]

theorem walkExtra_cons_ne {c k : Nat} (h : c ≠ k) (cs ks : List Nat) :
    walkExtra (c :: cs) (k :: ks) = .ok (some 0) := by
  unfold walkExtra
  rw [if_pos h]

theorem walkExtra_none_iff {xs : List Nat} :
    ∀ {l : List Nat}, walkExtra xs l = .ok none ↔ ∃ r, l = xs ++ r := by
  induction xs with
  | nil =>
    intro l
    exact ⟨fun _ => ⟨l, rfl⟩, fun _ => rfl⟩
  | cons c cs ih =>
    intro l
    cases l with
    | nil =>
      constructor
      · intro h; cases h
      · rintro ⟨r, hr⟩; cases hr
    | cons k ks =>
      by_cases hck : c = k
      · subst hck
        rw [walkExtra_cons_eq]
        cases hrec : walkExtra cs ks with
        | error msg =>
          constructor
          · intro h; cases h
          · rintro ⟨r, hr⟩
            have hks : ks = cs ++ r := by
              have := List.tail_eq_of_cons_eq hr
              simpa using this
            have := ih.mpr ⟨r, hks⟩
            rw [hrec] at this
            cases this
        | ok o =>
          cases o with
          | none =>
            constructor
            · intro _
              obtain ⟨r, hr⟩ := ih.mp hrec
              exact ⟨r, by rw [hr]; rfl⟩
            · intro _; rfl
          | some i =>
            constructor
            · intro h; cases h
            · rintro ⟨r, hr⟩
              have hks : ks = cs ++ r := by
                have := List.tail_eq_of_cons_eq hr
                simpa using this
              have := ih.mpr ⟨r, hks⟩
              rw [hrec] at this
              cases this
      · rw [walkExtra_cons_ne hck]
        constructor
        · intro h; cases h
        · rintro ⟨r, hr⟩
          exact absurd (List.head_eq_of_cons_eq hr).symm hck

theorem walkExtra_some_spec {xs : List Nat} :
    ∀ {l : List Nat} {i : Nat}, walkExtra xs l = .ok (some i) →
      ∃ a b, xs[i]? = some a ∧ l[i]? = some b ∧ a ≠ b ∧ xs.take i = l.take i := by
  induction xs with
  | nil => intro l i h; cases h
  | cons c cs ih =>
    intro l i h
    cases l with
    | nil => cases h
    | cons k ks =>
      by_cases hck : c = k
      · subst hck
        rw [walkExtra_cons_eq] at h
        cases hrec : walkExtra cs ks with
        | error msg => rw [hrec] at h; cases h
        | ok o =>
          rw [hrec] at h
          cases o with
          | none => cases h
          | some j =>
            have hij : j + 1 = i := by simpa using h
            subst hij
            obtain ⟨a, b, h1, h2, h3, h4⟩ := ih hrec
            exact ⟨a, b, by simpa using h1, by simpa using h2, h3, by simp [h4]⟩
      · rw [walkExtra_cons_ne hck] at h
        have hi : 0 = i := by simpa using h
        subst hi
        exact ⟨c, k, by simp, by simp, hck, rfl⟩

theorem walkExtra_ok_of_le {x : List Nat} :
    ∀ {l : List Nat}, x.length ≤ l.length → ∃ o, walkExtra x l = .ok o := by
  induction x with
  | nil => intro l _; exact ⟨none, rfl⟩
  | cons c cs ih =>
    intro l hlen
    cases l with
    | nil => simp at hlen
    | cons k ks =>
      by_cases hck : c = k
      · subst hck
        obtain ⟨o, ho⟩ := ih (l := ks) (by simpa using hlen)
        cases o with
        | none => exact ⟨none, by rw [walkExtra_cons_eq, ho]⟩
        | some j => exact ⟨some (j + 1), by rw [walkExtra_cons_eq, ho]⟩
      · exact ⟨some 0, walkExtra_cons_ne hck cs ks⟩


theorem listGet_of_getElem {β : Type} {l : List β} {i : Nat} {x : β}
    (h : l[i]? = some x) : listGet l i = .ok x := by
  unfold listGet
  rw [List.get?_eq_getElem?, h]

theorem dropPfx_none_of_mismatch {xs l : List Nat} {i : Nat} {a b : Nat}
    (h1 : xs[i]? = some a) (h2 : l[i]? = some b) (hne : a ≠ b) :
    dropPfx xs l = none := by
  cases hd : dropPfx xs l with
  | none => rfl
  | some r =>
    rw [dropPfx_eq_some] at hd
    subst hd
    have hlt : i < xs.length := (List.getElem?_eq_some_iff.mp h1).1
    rw [List.getElem?_append, if_pos hlt, h1] at h2
    injection h2 with h3
    exact absurd h3 hne

theorem lcp_succ (fuel : Nat) (n : RxNode α) (depth : Nat) (ks : List Nat) :
    RxNode.longestCommonPfx (fuel + 1) n depth ks =
      match walkExtra n.extraChars ks with
      | .error msg => .error msg
      | .ok (some i) => .ok (n, ((depth + i : Nat) : Int), (i : Int))
      | .ok none =>
        match ks.drop n.extraChars.length with
        | [] => .ok (n, -1, -1)
        | s :: rest =>
          if tstBit n.bitmap s then
            match listGet n.children (getChildIdx n.bitmap s) with
            | .error msg => .error msg
            | .ok child =>
              child.longestCommonPfx fuel (depth + n.extraChars.length + 1) rest
          else .ok (n, ((depth + n.extraChars.length : Nat) : Int), -1) := rfl

theorem lcp_mem (fuel : Nat) :
    ∀ (n : RxNode α) (pre : List Nat) (depth : Nat) (ks : List Nat),
      ks.length < fuel → WF n pre → pre.length + ks.length = 22 →
      ∃ node fi ei, n.longestCommonPfx fuel depth ks = .ok (node, fi, ei) ∧
        (fi = -1 → ∃ e, node.entry = some e ∧ mem n ks = some e) ∧
        (fi ≠ -1 → mem n ks = none) := by
  induction fuel with
  | zero => intro n pre depth ks hfuel; omega
  | succ fuel ih =>
    intro n pre depth ks hfuel hwf hlen
    cases hwf with
    | leaf pre extra e0 hdig hl hkwf hkey =>
      have hext : extra.length = ks.length := by omega
      obtain ⟨o, ho⟩ := walkExtra_ok_of_le (x := extra) (l := ks) (by omega)
      cases o with
      | none =>
        obtain ⟨r, hr⟩ := walkExtra_none_iff.mp ho
        have hrnil : r = [] := by
          have := congrArg List.length hr
          simp at this
          simpa using List.eq_nil_of_length_eq_zero (by omega)
        subst hrnil
        have hks : ks = extra := by simpa using hr
        refine ⟨.mk (some e0) 0 extra [], -1, -1, ?_, ?_, ?_⟩
        · rw [lcp_succ]
          simp only [RxNode.extraChars] at ho ⊢
          rw [ho]
          have hdrop : ks.drop extra.length = [] := by
            rw [hks]; simp
          simp only [hdrop]
        · intro _
          refine ⟨e0, rfl, ?_⟩
          have : dropPfx extra ks = some [] := by
            rw [dropPfx_eq_some]; simpa using hks
          rw [mem_exact (by simpa [RxNode.extraChars] using this)]
          rfl
        · intro hne; exact absurd rfl hne
      | some i =>
        obtain ⟨a, b2, h1, h2, hne, _⟩ := walkExtra_some_spec ho
        refine ⟨.mk (some e0) 0 extra [], ((depth + i : Nat) : Int), (i : Int), ?_, ?_, ?_⟩
        · rw [lcp_succ]
          simp only [RxNode.extraChars] at ho ⊢
          rw [ho]
        · intro hc
          exfalso
          omega
        · intro _
          exact mem_none (by
            simpa [RxNode.extraChars] using dropPfx_none_of_mismatch h1 h2 hne)
    | node pre extra b children hdig hl hb hcl hch =>
      have hext : extra.length < ks.length := by omega
      obtain ⟨o, ho⟩ := walkExtra_ok_of_le (x := extra) (l := ks) (by omega)
      cases o with
      | some i =>
        obtain ⟨a, b2, h1, h2, hne, _⟩ := walkExtra_some_spec ho
        refine ⟨.mk none b extra children, ((depth + i : Nat) : Int), (i : Int), ?_, ?_, ?_⟩
        · rw [lcp_succ]
          simp only [RxNode.extraChars] at ho ⊢
          rw [ho]
        · intro hc; exfalso; omega
        · intro _
          exact mem_none (by
            simpa [RxNode.extraChars] using dropPfx_none_of_mismatch h1 h2 hne)
      | none =>
        obtain ⟨r, hr⟩ := walkExtra_none_iff.mp ho
        have hdp : dropPfx extra ks = some r := dropPfx_eq_some.mpr hr
        cases r with
        | nil =>
          have := dropPfx_length hdp
          simp at this
          omega
        | cons s rest =>
          have hlen2 : ks.length = extra.length + rest.length + 1 := by
            have := dropPfx_length hdp
            simp at this
            omega
          have hdrop : ks.drop extra.length = s :: rest := by
            rw [hr]; simp
          by_cases hbit : tstBit b s
          · obtain ⟨c, hcget, hcwf⟩ := WF_child (p := pre) (q := extra) hcl hch
              (s := s) (by
                by_contra hges
                push_neg at hges
                have : b / 2 ^ s = 0 := by
                  apply Nat.div_eq_of_lt
                  calc b < U64 := hb
                    _ ≤ 2 ^ s := by
                        unfold U64
                        exact Nat.pow_le_pow_right (by omega) hges
                rw [tstBit_true_iff, this] at hbit
                simp at hbit) hbit
            obtain ⟨node, fi, ei, hres, hok, hnok⟩ :=
              ih c (pre ++ extra ++ [s]) (depth + extra.length + 1) rest
                (by omega) hcwf (by simp; omega)
            refine ⟨node, fi, ei, ?_, ?_, ?_⟩
            · rw [lcp_succ]
              simp only [RxNode.extraChars, RxNode.bitmap, RxNode.children] at ho ⊢
              rw [ho]
              simp only [hdrop, hbit, if_pos rfl, listGet_of_getElem hcget]
              exact hres
            · intro hfi
              obtain ⟨e, he1, he2⟩ := hok hfi
              refine ⟨e, he1, ?_⟩
              rw [mem_step (by simpa [RxNode.extraChars] using hdp)]
              simp only [RxNode.bitmap, RxNode.children, hbit, if_pos rfl, hcget]
              exact he2
            · intro hfi
              rw [mem_step (by simpa [RxNode.extraChars] using hdp)]
              simp only [RxNode.bitmap, RxNode.children, hbit, if_pos rfl, hcget]
              exact hnok hfi
          · have hbit2 : tstBit b s = false := by simpa using hbit
            refine ⟨.mk none b extra children, ((depth + extra.length : Nat) : Int), -1, ?_, ?_, ?_⟩
            · rw [lcp_succ]
              simp only [RxNode.extraChars, RxNode.bitmap] at ho ⊢
              rw [ho]
              simp [hdrop, hbit2]
            · intro hc; exfalso; omega
            · intro _
              rw [mem_step (by simpa [RxNode.extraChars] using hdp)]
              simp [RxNode.bitmap, hbit2]

theorem insertIdx_getElem?_lt {β : Type} {l : List β} {idx j : Nat} {x : β}
    (hidx : idx ≤ l.length) (hj : j < idx) :
    (l.insertIdx idx x)[j]? = l[j]? := by
  have hj2 : j < l.length := by omega
  rw [List.getElem?_eq_getElem (by rw [List.length_insertIdx _ _ hidx]; omega),
    List.getElem?_eq_getElem hj2]
  exact congrArg some (List.getElem_insertIdx_of_lt l x idx j hj hj2)

theorem insertIdx_getElem?_self {β : Type} {l : List β} {idx : Nat} {x : β}
    (hidx : idx ≤ l.length) :
    (l.insertIdx idx x)[idx]? = some x := by
  rw [List.getElem?_eq_getElem (by rw [List.length_insertIdx _ _ hidx]; omega)]
  exact congrArg some (List.getElem_insertIdx_self l x idx hidx)

theorem insertIdx_getElem?_ge {β : Type} {l : List β} {idx j : Nat} {x : β}
    (hidx : idx ≤ l.length) (hj : idx ≤ j) :
    (l.insertIdx idx x)[j + 1]? = l[j]? := by
  by_cases hjl : j < l.length
  · rw [List.getElem?_eq_getElem (by rw [List.length_insertIdx _ _ hidx]; omega),
      List.getElem?_eq_getElem hjl]
    have hidxj : idx + (j - idx) = j := by omega
    have h2 : (List.insertIdx idx x l)[idx + (j - idx) + 1]? = l[idx + (j - idx)]? := by
      rw [List.getElem?_eq_getElem (by rw [List.length_insertIdx _ _ hidx]; omega),
        List.getElem?_eq_getElem (by omega)]
      exact congrArg some (List.getElem_insertIdx_add_succ l x idx (j - idx) (by omega))
    rw [hidxj] at h2
    rw [List.getElem?_eq_getElem (by rw [List.length_insertIdx _ _ hidx]; omega),
      List.getElem?_eq_getElem hjl] at h2
    exact h2
  · rw [List.getElem?_eq_none (by rw [List.length_insertIdx _ _ hidx]; omega),
      List.getElem?_eq_none (by omega)]

theorem tstBit_pow (a i : Nat) : tstBit (2 ^ a) i = decide (i = a) := by
  rcases Nat.lt_trichotomy i a with h | h | h
  · have hdiv : (2:ℕ) ^ a / 2 ^ i = 2 ^ (a - i) := by
      exact Nat.pow_div (by omega) (by omega)
    have hsub : a - i = (a - i - 1) + 1 := by omega
    unfold tstBit
    rw [hdiv, hsub, pow_succ]
    simp only [Nat.mul_mod_left]
    have : ¬ i = a := by omega
    simp [this]
  · subst h
    unfold tstBit
    rw [Nat.div_self (Nat.pos_pow_of_pos i (by omega))]
    simp
  · have hdiv : (2:ℕ) ^ a / 2 ^ i = 0 := by
      apply Nat.div_eq_of_lt
      exact Nat.pow_lt_pow_right (by omega) h
    unfold tstBit
    rw [hdiv]
    have : ¬ i = a := by omega
    simp [this]

theorem tstBit_two_pows {a c : Nat} (hne : a ≠ c) (i : Nat) :
    tstBit (2 ^ a + 2 ^ c) i = (decide (i = a) || decide (i = c)) := by
  have hclear : tstBit (2 ^ a) c = false := by
    rw [tstBit_pow]
    simp [Ne.symm hne]
  rcases Nat.lt_trichotomy i c with h | h | h
  · rw [tstBit_add_pow_lt h, tstBit_pow]
    have : ¬ i = c := by omega
    simp [this]
  · subst h
    rw [tstBit_add_pow_self hclear]
    simp
  · rw [tstBit_add_pow_gt hclear h, tstBit_pow]
    have : ¬ i = c := by omega
    simp [this]

theorem bitsBelow_two_pows {a c : Nat} (hlt : a < c) (n : Nat) :
    bitsBelow (2 ^ a + 2 ^ c) n =
      (if a < n then [a] else []) ++ (if c < n then [c] else []) := by
  induction n with
  | zero => simp [bitsBelow]
  | succ n ih =>
    rw [bitsBelow_succ, ih, tstBit_two_pows (show a ≠ c by omega)]
    rcases Nat.lt_trichotomy n a with h | h | h
    · have e1 : ¬ n = a := by omega
      have e2 : ¬ n = c := by omega
      have e3 : ¬ a < n := by omega
      have e4 : ¬ a < n + 1 := by omega
      have e5 : ¬ c < n := by omega
      have e6 : ¬ c < n + 1 := by omega
      simp [e1, e2, e3, e4, e5, e6]
    · have e2 : ¬ n = c := by omega
      have e3 : ¬ a < a := by omega
      have e4 : a < a + 1 := by omega
      have e5 : ¬ c < a := by omega
      have e6 : ¬ c < a + 1 := by omega
      simp [h, e2, e3, e4, e5, e6]
    · rcases Nat.lt_trichotomy n c with h2 | h2 | h2
      · have e1 : ¬ n = a := by omega
        have e2 : ¬ n = c := by omega
        have e3 : a < n := by omega
        have e4 : a < n + 1 := by omega
        have e5 : ¬ c < n := by omega
        have e6 : ¬ c < n + 1 := by omega
        simp [e1, e2, e3, e4, e5, e6]
      · have e1 : ¬ n = a := by omega
        have e3 : a < c := by omega
        have e4 : a < c + 1 := by omega
        have e5 : ¬ c < c := by omega
        have e6 : c < c + 1 := by omega
        simp [h2, e1, e3, e4, e5, e6]
      · have e1 : ¬ n = a := by omega
        have e2 : ¬ n = c := by omega
        have e3 : a < n := by omega
        have e4 : a < n + 1 := by omega
        have e5 : c < n := by omega
        have e6 : c < n + 1 := by omega
        simp [e1, e2, e3, e4, e5, e6]

theorem bitsList_two_pows {a c : Nat} (hlt : a < c) (hc : c < 64) :
    bitsList (2 ^ a + 2 ^ c) = [a, c] := by
  unfold bitsList
  rw [bitsBelow_two_pows hlt]
  have h1 : a < 64 := by omega
  simp [h1, hc]

theorem getElem?_split {xs : List Nat} {i : Nat} {a : Nat} (h : xs[i]? = some a) :
    xs = xs.take i ++ a :: xs.drop (i + 1) := by
  obtain ⟨hlt, hget⟩ := List.getElem?_eq_some_iff.mp h
  conv_lhs => rw [← List.take_append_drop i xs]
  rw [List.drop_eq_getElem_cons hlt, hget]

theorem dropPfx_append {x : List Nat} :
    ∀ {y l : List Nat}, dropPfx (x ++ y) l = (dropPfx x l).bind (dropPfx y) := by
  induction x with
  | nil => intro y l; simp [dropPfx]
  | cons c cs ih =>
    intro y l
    cases l with
    | nil => simp [dropPfx]
    | cons k ks =>
      by_cases h : c = k
      · subst h
        show dropPfx (c :: (cs ++ y)) (c :: ks) = _
        simp only [dropPfx, if_pos rfl]
        exact ih
      · show dropPfx (c :: (cs ++ y)) (k :: ks) = _
        simp only [dropPfx, if_neg h]
        rfl

theorem insertIdx_append_left {β : Type} {l1 : List β} :
    ∀ {n : Nat} {x : β} {l2 : List β}, n ≤ l1.length →
      (l1 ++ l2).insertIdx n x = l1.insertIdx n x ++ l2 := by
  induction l1 with
  | nil =>
    intro n x l2 hn
    have : n = 0 := by simpa using hn
    subst this
    simp
  | cons a l1 ih =>
    intro n x l2 hn
    cases n with
    | zero => simp
    | succ n =>
      show (a :: (l1 ++ l2)).insertIdx (n + 1) x = _
      rw [List.insertIdx_succ_cons, List.insertIdx_succ_cons]
      rw [List.cons_append, ih (by simpa using hn)]

theorem bitsBelow_add_pow {b s : Nat} (hclear : tstBit b s = false) :
    ∀ {t : Nat}, s < t →
      bitsBelow (b + 2 ^ s) t = (bitsBelow b t).insertIdx ((bitsBelow b s).length) s := by
  intro t
  induction t with
  | zero => omega
  | succ t ih =>
    intro hst
    by_cases hts : s = t
    · subst hts
      rw [bitsBelow_succ, bitsBelow_succ, hclear, tstBit_add_pow_self hclear]
      have hcongr : bitsBelow (b + 2 ^ s) s = bitsBelow b s :=
        bitsBelow_congr s (fun i hi => tstBit_add_pow_lt hi)
      rw [hcongr]
      rw [if_pos rfl, if_neg (by simp), List.append_nil, List.insertIdx_length_self]
    · have hst2 : s < t := by omega
      rw [bitsBelow_succ, bitsBelow_succ, ih hst2,
        tstBit_add_pow_gt hclear (by omega)]
      have hle : (bitsBelow b s).length ≤ (bitsBelow b t).length := by
        obtain ⟨u, hu⟩ := bitsBelow_mono b (show s ≤ t by omega)
        rw [hu]
        simp
      rw [insertIdx_append_left hle]

theorem bitsBelow_len_mono (b : Nat) {s t : Nat} (h : s ≤ t) :
    (bitsBelow b s).length ≤ (bitsBelow b t).length := by
  obtain ⟨u, hu⟩ := bitsBelow_mono b h
  rw [hu]
  simp

theorem bitsBelow_len_lt {b s2 s : Nat} (h2 : tstBit b s2 = true) (hlt : s2 < s) :
    (bitsBelow b s2).length < (bitsBelow b s).length := by
  have h3 : (bitsBelow b (s2 + 1)).length = (bitsBelow b s2).length + 1 := by
    rw [bitsBelow_succ, h2]
    simp
  have := bitsBelow_len_mono b (show s2 + 1 ≤ s by omega)
  omega

theorem getChildIdx_le_len {b s : Nat} (hs : s ≤ 64) :
    getChildIdx b s ≤ (bitsList b).length := by
  rw [getChildIdx_eq]
  exact bitsBelow_len_mono b hs

theorem getChildIdx_add_pow_self {b s : Nat} :
    getChildIdx (b + 2 ^ s) s = getChildIdx b s := by
  rw [getChildIdx_eq, getChildIdx_eq]
  congr 1
  exact bitsBelow_congr s (fun i hi => tstBit_add_pow_lt hi)

theorem two_pow_add_lt_u64 {a c : Nat} (hne : a ≠ c) (ha : a < 64) (hc : c < 64) :
    2 ^ a + 2 ^ c < U64 := by
  unfold U64
  rcases Nat.lt_or_ge a c with h | h
  · have h1 : (2:ℕ) ^ a < 2 ^ c := Nat.pow_lt_pow_right (by omega) h
    have h2 : (2:ℕ) ^ (c + 1) ≤ 2 ^ 64 := Nat.pow_le_pow_right (by omega) (by omega)
    rw [pow_succ] at h2
    omega
  · have hlt : c < a := by omega
    have h1 : (2:ℕ) ^ c < 2 ^ a := Nat.pow_lt_pow_right (by omega) hlt
    have h2 : (2:ℕ) ^ (a + 1) ≤ 2 ^ 64 := Nat.pow_le_pow_right (by omega) (by omega)
    rw [pow_succ] at h2
    omega

theorem add_pow_lt_u64 {b s : Nat} (hclear : tstBit b s = false) (hb : b < U64)
    (hs : s < 64) : b + 2 ^ s < U64 := by
  have hmod : b % 2 ^ (s + 1) = b % 2 ^ s := by
    rw [pow_succ, Nat.mod_mul]
    rw [tstBit_false_iff] at hclear
    rw [hclear]
    simp
  have hr : b % 2 ^ s < 2 ^ s := Nat.mod_lt _ (Nat.pos_pow_of_pos s (by omega))
  have hq : b / 2 ^ (s + 1) < 2 ^ (63 - s) := by
    rw [Nat.div_lt_iff_lt_mul (Nat.pos_pow_of_pos (s + 1) (by omega))]
    calc b < U64 := hb
      _ = 2 ^ (63 - s) * 2 ^ (s + 1) := by
          unfold U64
          rw [← pow_add]
          congr 1
          omega
  have hdecomp := Nat.div_add_mod b (2 ^ (s + 1))
  have hU : U64 = 2 ^ (s + 1) * 2 ^ (63 - s) := by
    unfold U64
    rw [← pow_add]
    congr 1
    omega
  have hstep : 2 ^ (s + 1) * (b / 2 ^ (s + 1) + 1) ≤ 2 ^ (s + 1) * 2 ^ (63 - s) :=
    Nat.mul_le_mul_left _ (by omega)
  have hexp : 2 ^ (s + 1) * (b / 2 ^ (s + 1) + 1) =
      2 ^ (s + 1) * (b / 2 ^ (s + 1)) + 2 ^ s + 2 ^ s := by
    rw [pow_succ]
    ring
  omega

theorem WF_node_inv {e : Option (Entry α)} {b : Nat} {extra : List Nat}
    {children : List (RxNode α)} {pre : List Nat}
    (hwf : WF (.mk e b extra children) pre) (hlt : pre.length + extra.length < 22) :
    e = none ∧ b < U64 ∧ children.length = (bitsList b).length ∧
      (∀ (i s : Nat) (c : RxNode α), children[i]? = some c →
        (bitsList b)[i]? = some s → WF c (pre ++ extra ++ [s])) := by
  cases hwf with
  | leaf _ _ _ _ hl _ _ => omega
  | node _ _ _ _ _ _ hb hcl hch => exact ⟨rfl, hb, hcl, hch⟩

theorem WF_leaf_inv {e : Option (Entry α)} {b : Nat} {extra : List Nat}
    {children : List (RxNode α)} {pre : List Nat}
    (hwf : WF (.mk e b extra children) pre) (hl : pre.length + extra.length = 22) :
    ∃ e0, e = some e0 ∧ b = 0 ∧ children = [] ∧ e0.Key.Wf ∧
      e0.Key.internalRepr = pre ++ extra := by
  cases hwf with
  | leaf _ _ e0 _ _ hkwf hkey => exact ⟨e0, rfl, rfl, rfl, hkwf, hkey⟩
  | node _ _ _ _ _ hlt _ _ _ => omega

theorem createP_succ (fuel : Nat) (n : RxNode α) (ks : List Nat) (e : Entry α) :
    RxNode.createP (fuel + 1) n ks e =
      match walkExtra n.extraChars ks with
      | .error msg => .error msg
      | .ok (some i) =>
        match listGet n.extraChars i, listGet ks i with
        | .error msg, _ => .error msg
        | _, .error msg => .error msg
        | .ok splitNodeOffset, .ok newNodeOffset =>
          .ok (.mk none (2 ^ splitNodeOffset + 2 ^ newNodeOffset)
            (n.extraChars.take i)
            (if newNodeOffset > splitNodeOffset then
              [.mk n.entry n.bitmap (n.extraChars.drop (i + 1)) n.children,
                .mk (some e) 0 (ks.drop (i + 1)) []]
            else
              [.mk (some e) 0 (ks.drop (i + 1)) [],
                .mk n.entry n.bitmap (n.extraChars.drop (i + 1)) n.children]))
      | .ok none =>
        match ks.drop n.extraChars.length with
        | [] => .ok (.mk (some e) n.bitmap n.extraChars n.children)
        | s :: rest =>
          if tstBit n.bitmap s then
            match listGet n.children (getChildIdx n.bitmap s) with
            | .error msg => .error msg
            | .ok child =>
              match child.createP fuel rest e with
              | .error msg => .error msg
              | .ok child2 =>
                .ok (.mk n.entry n.bitmap n.extraChars
                  (n.children.set (getChildIdx n.bitmap s) child2))
          else
            .ok (.mk n.entry (n.bitmap + 2 ^ s) n.extraChars
              (n.children.insertIdx (getChildIdx (n.bitmap + 2 ^ s) s)
                (.mk (some e) 0 rest []))) := rfl

theorem tstBit_zero (s : Nat) : tstBit 0 s = false := by
  unfold tstBit
  simp

theorem mem_congr_tail {ent : Option (Entry α)} {bm : Nat} {ch : List (RxNode α)}
    {x1 ks1 x2 ks2 : List Nat} (h : dropPfx x1 ks1 = dropPfx x2 ks2) :
    mem (.mk ent bm x1 ch) ks1 = mem (.mk ent bm x2 ch) ks2 := by
  cases hd : dropPfx x2 ks2 with
  | none =>
    rw [mem_none (n := .mk ent bm x1 ch) (k := ks1)
        (by show dropPfx x1 ks1 = none; rw [h, hd]),
      mem_none (n := .mk ent bm x2 ch) (k := ks2)
        (by show dropPfx x2 ks2 = none; exact hd)]
  | some r =>
    cases r with
    | nil =>
      rw [mem_exact (n := .mk ent bm x1 ch) (k := ks1)
          (by show dropPfx x1 ks1 = some []; rw [h, hd]),
        mem_exact (n := .mk ent bm x2 ch) (k := ks2)
          (by show dropPfx x2 ks2 = some []; exact hd)]
      rfl
    | cons s rest =>
      rw [mem_step (n := .mk ent bm x1 ch) (k := ks1) (r := rest) (s := s)
          (by show dropPfx x1 ks1 = some (s :: rest); rw [h, hd]),
        mem_step (n := .mk ent bm x2 ch) (k := ks2) (r := rest) (s := s)
          (by show dropPfx x2 ks2 = some (s :: rest); exact hd)]
      rfl

theorem mem_two_child {x : List Nat} {a bv : Nat} {cA cB : RxNode α}
    (hne : a ≠ bv) (ha : a < 64) (hb : bv < 64) (ks2 : List Nat) :
    mem (.mk none (2 ^ a + 2 ^ bv) x (if bv > a then [cA, cB] else [cB, cA])) ks2 =
      match dropPfx x ks2 with
      | some (s :: r) => if s = a then mem cA r else if s = bv then mem cB r else none
      | _ => none := by
  cases hd : dropPfx x ks2 with
  | none =>
    rw [mem_none (n := .mk none (2 ^ a + 2 ^ bv) x
        (if bv > a then [cA, cB] else [cB, cA])) (k := ks2)
      (by show dropPfx x ks2 = none; exact hd)]
  | some r =>
    cases r with
    | nil =>
      rw [mem_exact (n := .mk none (2 ^ a + 2 ^ bv) x
          (if bv > a then [cA, cB] else [cB, cA])) (k := ks2)
        (by show dropPfx x ks2 = some []; exact hd)]
      rfl
    | cons s rest =>
      rw [mem_step (n := .mk none (2 ^ a + 2 ^ bv) x
          (if bv > a then [cA, cB] else [cB, cA])) (k := ks2) (r := rest) (s := s)
        (by show dropPfx x ks2 = some (s :: rest); exact hd)]
      simp only [RxNode.bitmap, RxNode.children]
      rw [tstBit_two_pows hne s]
      by_cases hsa : s = a
      · subst hsa
        rw [if_pos (by simp)]
        have hidx : getChildIdx (2 ^ s + 2 ^ bv) s = if bv < s then 1 else 0 := by
          rw [getChildIdx_eq]
          rcases Nat.lt_or_ge bv s with h | h
          · rw [show (2:ℕ) ^ s + 2 ^ bv = 2 ^ bv + 2 ^ s by omega,
              bitsBelow_two_pows h s]
            simp [h]
          · have hlt : s < bv := by omega
            rw [bitsBelow_two_pows hlt s]
            have h1 : ¬ s < s := by omega
            have h2 : ¬ bv < s := by omega
            simp [h1, h2]
        rw [hidx]
        by_cases hbs : bv < s
        · have hgt : ¬ bv > s := by omega
          rw [if_pos hbs, if_neg hgt]
          simp
        · have hgt : bv > s := by omega
          rw [if_neg hbs, if_pos hgt]
          simp
      · by_cases hsb : s = bv
        · subst hsb
          rw [if_pos (by simp)]
          have hidx : getChildIdx (2 ^ a + 2 ^ s) s = if a < s then 1 else 0 := by
            rw [getChildIdx_eq]
            rcases Nat.lt_or_ge a s with h | h
            · rw [bitsBelow_two_pows h s]
              simp [h]
            · have hlt : s < a := by omega
              rw [show (2:ℕ) ^ a + 2 ^ s = 2 ^ s + 2 ^ a by omega,
                bitsBelow_two_pows hlt s]
              have h1 : ¬ s < s := by omega
              have h2 : ¬ a < s := by omega
              simp [h1, h2]
          rw [hidx]
          by_cases has : a < s
          · rw [if_pos has, if_pos has]
            simp [hsa]
          · have hgt : ¬ s > a := by omega
            rw [if_neg has, if_neg hgt]
            simp [hsa]
        · rw [if_neg (by simp [hsa, hsb])]
          simp [hsa, hsb]

theorem WF_split_node {pre x : List Nat} {a bv : Nat} {cA cB : RxNode α}
    (hne : a ≠ bv) (ha : a < 64) (hb : bv < 64)
    (hlen : pre.length + x.length < 22)
    (hdig : ∀ c ∈ x, c < 64)
    (hA : WF cA (pre ++ x ++ [a])) (hB : WF cB (pre ++ x ++ [bv])) :
    WF (.mk none (2 ^ a + 2 ^ bv) x (if bv > a then [cA, cB] else [cB, cA]) : RxNode α)
      pre := by
  apply WF.node pre x (2 ^ a + 2 ^ bv) _ hdig hlen (two_pow_add_lt_u64 hne ha hb)
  · by_cases h : bv > a
    · rw [if_pos h, bitsList_two_pows h hb]
      rfl
    · have hlt : bv < a := by omega
      rw [if_neg h, show (2:ℕ) ^ a + 2 ^ bv = 2 ^ bv + 2 ^ a by omega,
        bitsList_two_pows hlt ha]
      rfl
  · intro i s c h1 h2
    by_cases h : bv > a
    · rw [if_pos h] at h1
      rw [bitsList_two_pows h hb] at h2
      match i, h1, h2 with
      | 0, h1, h2 =>
        have hc : c = cA := by simpa using h1.symm
        have hs : s = a := by simpa using h2.symm
        subst hc; subst hs; exact hA
      | 1, h1, h2 =>
        have hc : c = cB := by simpa using h1.symm
        have hs : s = bv := by simpa using h2.symm
        subst hc; subst hs; exact hB
      | n + 2, h1, h2 => simp at h1
    · have hlt : bv < a := by omega
      rw [if_neg h] at h1
      rw [show (2:ℕ) ^ a + 2 ^ bv = 2 ^ bv + 2 ^ a by omega,
        bitsList_two_pows hlt ha] at h2
      match i, h1, h2 with
      | 0, h1, h2 =>
        have hc : c = cB := by simpa using h1.symm
        have hs : s = bv := by simpa using h2.symm
        subst hc; subst hs; exact hB
      | 1, h1, h2 =>
        have hc : c = cA := by simpa using h1.symm
        have hs : s = a := by simpa using h2.symm
        subst hc; subst hs; exact hA
      | n + 2, h1, h2 => simp at h1

theorem createP_split_spec {ent : Option (Entry α)} {bm : Nat} {extra : List Nat}
    {children : List (RxNode α)} {pre ks : List Nat} {e : Entry α} {i a bv : Nat}
    (hwf : WF (.mk ent bm extra children) pre)
    (hlen : pre.length + ks.length = 22)
    (hsym : ∀ c ∈ ks, c < 64) (hkwf : e.Key.Wf)
    (hkey : e.Key.internalRepr = pre ++ ks)
    (h1 : extra[i]? = some a) (h2 : ks[i]? = some bv) (hne : a ≠ bv)
    (htake : extra.take i = ks.take i) :
    WF (.mk none (2 ^ a + 2 ^ bv) (extra.take i)
      (if bv > a then
        [.mk ent bm (extra.drop (i + 1)) children, .mk (some e) 0 (ks.drop (i + 1)) []]
      else
        [.mk (some e) 0 (ks.drop (i + 1)) [], .mk ent bm (extra.drop (i + 1)) children])
      : RxNode α) pre ∧
    ∀ ks2, mem (.mk none (2 ^ a + 2 ^ bv) (extra.take i)
      (if bv > a then
        [.mk ent bm (extra.drop (i + 1)) children, .mk (some e) 0 (ks.drop (i + 1)) []]
      else
        [.mk (some e) 0 (ks.drop (i + 1)) [], .mk ent bm (extra.drop (i + 1)) children])
      : RxNode α) ks2 =
      if ks2 = ks then some e else mem (.mk ent bm extra children : RxNode α) ks2 := by
  have hiextra : i < extra.length := (List.getElem?_eq_some_iff.mp h1).1
  have hiks : i < ks.length := (List.getElem?_eq_some_iff.mp h2).1
  have ha : a < 64 := WF_extra_digits hwf a (List.getElem?_mem h1)
  have hb : bv < 64 := hsym bv (List.getElem?_mem h2)
  have htakelen : (extra.take i).length = i := by
    simp [List.length_take]
    omega
  have hext_dec : extra = extra.take i ++ a :: extra.drop (i + 1) := getElem?_split h1
  have hks_dec : ks = ks.take i ++ bv :: ks.drop (i + 1) := getElem?_split h2
  have hks_dec2 : ks = extra.take i ++ bv :: ks.drop (i + 1) := by
    rw [htake]
    exact hks_dec
  have hsplit_drop : ∀ l, dropPfx extra l =
      (dropPfx (extra.take i) l).bind (dropPfx (a :: extra.drop (i + 1))) := by
    intro l
    conv_lhs => rw [hext_dec]
    exact dropPfx_append
  have hks_drop : dropPfx (extra.take i) ks = some (bv :: ks.drop (i + 1)) :=
    dropPfx_eq_some.mpr hks_dec2
  constructor
  · apply WF_split_node hne ha hb
    · rw [htakelen]
      omega
    · intro c hc
      exact WF_extra_digits hwf c (List.take_subset i extra hc)
    · have hsh := WF_shift hwf (x := extra.take i ++ [a]) (y := extra.drop (i + 1))
        (by simpa using hext_dec)
      simpa [RxNode.entry, RxNode.bitmap, RxNode.children, RxNode.extraChars,
        List.append_assoc] using hsh
    · apply WF.leaf
      · intro c hc
        exact hsym c (List.drop_subset (i + 1) ks hc)
      · simp [htakelen]
        omega
      · exact hkwf
      · rw [hkey]
        conv_lhs => rw [hks_dec2]
        simp
  · intro ks2
    rw [mem_two_child hne ha hb ks2]
    cases hd : dropPfx (extra.take i) ks2 with
    | none =>
      have hne2 : ks2 ≠ ks := by
        intro heq
        rw [heq, hks_drop] at hd
        cases hd
      rw [if_neg hne2,
        mem_none (n := .mk ent bm extra children) (k := ks2)
          (by show dropPfx extra ks2 = none; rw [hsplit_drop, hd]; rfl)]
    | some r =>
      have hks2_dec : ks2 = extra.take i ++ r := dropPfx_eq_some.mp hd
      cases r with
      | nil =>
        have hne2 : ks2 ≠ ks := by
          intro heq
          rw [heq, hks_drop] at hd
          cases hd
        rw [if_neg hne2,
          mem_none (n := .mk ent bm extra children) (k := ks2)
            (by show dropPfx extra ks2 = none; rw [hsplit_drop, hd]; rfl)]
      | cons s r =>
        show (if s = a then mem (.mk ent bm (extra.drop (i + 1)) children : RxNode α) r
            else if s = bv then mem (.mk (some e) 0 (ks.drop (i + 1)) [] : RxNode α) r
            else none) = _
        by_cases hsa : s = a
        · subst hsa
          have hne2 : ks2 ≠ ks := by
            intro heq
            rw [hks2_dec, hks_dec2] at heq
            have := (List.append_right_inj _).mp heq
            injection this with hh
            exact hne hh
          rw [if_pos (Eq.refl s), if_neg hne2]
          exact mem_congr_tail (by
            rw [hsplit_drop, hd]
            show dropPfx (extra.drop (i + 1)) r = dropPfx (s :: extra.drop (i + 1)) (s :: r)
            simp [dropPfx])
        · by_cases hsb : s = bv
          · subst hsb
            rw [if_neg hsa, if_pos (Eq.refl s)]
            by_cases hr : r = ks.drop (i + 1)
            · subst hr
              have heq : ks2 = ks := by rw [hks2_dec]; exact hks_dec2.symm
              rw [if_pos heq]
              rw [mem_exact (n := (.mk (some e) 0 (ks.drop (i + 1)) [] : RxNode α))
                (k := ks.drop (i + 1))
                (by show dropPfx (ks.drop (i + 1)) (ks.drop (i + 1)) = some []
                    exact dropPfx_eq_some.mpr (by simp))]
              rfl
            · have hne2 : ks2 ≠ ks := by
                intro heq
                rw [hks2_dec, hks_dec2] at heq
                have := (List.append_right_inj _).mp heq
                injection this with _ hh
                exact hr hh
              rw [if_neg hne2,
                mem_none (n := .mk ent bm extra children) (k := ks2)
                  (by show dropPfx extra ks2 = none
                      rw [hsplit_drop, hd]
                      show dropPfx (a :: extra.drop (i + 1)) (s :: r) = none
                      simp [dropPfx, Ne.symm hsa])]
              cases hd2 : dropPfx (ks.drop (i + 1)) r with
              | none =>
                rw [mem_none (n := (.mk (some e) 0 (ks.drop (i + 1)) [] : RxNode α))
                  (k := r) (by show dropPfx (ks.drop (i + 1)) r = none; exact hd2)]
              | some u =>
                cases u with
                | nil =>
                  exfalso
                  exact hr (by simpa using dropPfx_eq_some.mp hd2)
                | cons u v =>
                  rw [mem_step (n := (.mk (some e) 0 (ks.drop (i + 1)) [] : RxNode α))
                    (k := r) (s := u) (r := v)
                    (by show dropPfx (ks.drop (i + 1)) r = some (u :: v); exact hd2)]
                  show (if tstBit 0 u = true then _ else _) = _
                  rw [tstBit_zero]
                  simp
          · rw [if_neg hsa, if_neg hsb]
            have hne2 : ks2 ≠ ks := by
              intro heq
              rw [hks2_dec, hks_dec2] at heq
              have := (List.append_right_inj _).mp heq
              injection this with hh
              exact hsb hh
            rw [if_neg hne2,
              mem_none (n := .mk ent bm extra children) (k := ks2)
                (by show dropPfx extra ks2 = none
                    rw [hsplit_drop, hd]
                    show dropPfx (a :: extra.drop (i + 1)) (s :: r) = none
                    simp [dropPfx, Ne.symm hsa])]

theorem append_cons_ne_head {p : List Nat} {x y : Nat} {u v : List Nat} (h : x ≠ y) :
    p ++ x :: u ≠ p ++ y :: v := by
  intro hq
  have h2 := (List.append_right_inj p).mp hq
  injection h2 with h3
  exact h h3

theorem append_cons_ne_tail {p : List Nat} {x : Nat} {u v : List Nat} (h : u ≠ v) :
    p ++ x :: u ≠ p ++ x :: v := by
  intro hq
  have h2 := (List.append_right_inj p).mp hq
  injection h2 with _ h3
  exact h h3

theorem mem_leaf_eval {e : Option (Entry α)} {x : List Nat} (r : List Nat) :
    mem (.mk e 0 x [] : RxNode α) r =
      if dropPfx x r = some [] then e else none := by
  cases hd : dropPfx x r with
  | none =>
    rw [mem_none (n := (.mk e 0 x [] : RxNode α)) (k := r)
      (by show dropPfx x r = none; exact hd)]
    simp [hd]
  | some u =>
    cases u with
    | nil =>
      rw [mem_exact (n := (.mk e 0 x [] : RxNode α)) (k := r)
        (by show dropPfx x r = some []; exact hd)]
      simp [hd]
      rfl
    | cons w v =>
      rw [mem_step (n := (.mk e 0 x [] : RxNode α)) (k := r) (s := w) (r := v)
        (by show dropPfx x r = some (w :: v); exact hd)]
      show (if tstBit 0 w = true then _ else _) = _
      rw [tstBit_zero]
      simp [hd]

theorem createP_spec (fuel : Nat) :
    ∀ (n : RxNode α) (pre ks : List Nat) (e : Entry α),
      ks.length < fuel → WF n pre → pre.length + ks.length = 22 →
      (∀ c ∈ ks, c < 64) → e.Key.Wf → e.Key.internalRepr = pre ++ ks →
      ∃ n2, n.createP fuel ks e = .ok n2 ∧ WF n2 pre ∧
        ∀ ks2, mem n2 ks2 = if ks2 = ks then some e else mem n ks2 := by
  induction fuel with
  | zero => intro n pre ks e hfuel; omega
  | succ fuel ih =>
    intro n pre ks e hfuel hwf hlen hsym hkwf hkey
    cases n with
    | mk ent bm extra children =>
      have hexle : extra.length ≤ ks.length := by
        have hx := WF_extra_len hwf
        simp [RxNode.extraChars] at hx
        omega
      obtain ⟨o, ho⟩ := walkExtra_ok_of_le (x := extra) (l := ks) hexle
      cases o with
      | some i =>
        obtain ⟨a, bv, h1, h2, hne, htake⟩ := walkExtra_some_spec ho
        obtain ⟨hwfr, hmemr⟩ := createP_split_spec hwf hlen hsym hkwf hkey h1 h2 hne htake
        refine ⟨_, ?_, hwfr, hmemr⟩
        rw [createP_succ]
        simp only [RxNode.extraChars, RxNode.entry, RxNode.bitmap, RxNode.children] at ho ⊢
        simp only [ho, listGet_of_getElem h1, listGet_of_getElem h2]
      | none =>
        obtain ⟨r, hr⟩ := walkExtra_none_iff.mp ho
        have hdp : dropPfx extra ks = some r := dropPfx_eq_some.mpr hr
        cases r with
        | nil =>
          have hks : ks = extra := by simpa using hr
          have hlx : extra.length = ks.length := by rw [hks]
          have hl22 : pre.length + extra.length = 22 := by omega
          obtain ⟨e0, hent, hbm0, hchn, _, _⟩ := WF_leaf_inv hwf hl22
          subst hent; subst hbm0; subst hchn
          have hdrop : ks.drop extra.length = [] := by rw [hks]; simp
          refine ⟨.mk (some e) 0 extra [], ?_, ?_, ?_⟩
          · rw [createP_succ]
            simp only [RxNode.extraChars, RxNode.entry, RxNode.bitmap, RxNode.children] at ho ⊢
            rw [ho]
            simp only [hdrop]
          · exact WF.leaf pre extra e (fun c hc => hsym c (by rw [hks]; exact hc))
              hl22 hkwf (by rw [hkey, hks])
          · intro ks2
            rw [mem_leaf_eval, mem_leaf_eval]
            by_cases hd : dropPfx extra ks2 = some []
            · have : ks2 = extra := by simpa using dropPfx_eq_some.mp hd
              rw [if_pos hd, if_pos hd, if_pos (by rw [this, hks])]
            · have hne2 : ks2 ≠ ks := by
                intro hq
                rw [hq, hks] at hd
                exact hd (dropPfx_eq_some.mpr (by simp))
              rw [if_neg hd, if_neg hd, if_neg hne2]
        | cons s rest =>
          have hl22 : pre.length + extra.length < 22 := by
            have hx := dropPfx_length hdp
            simp at hx
            omega
          obtain ⟨hent, hb, hcl, hch⟩ := WF_node_inv hwf hl22
          subst hent
          have hdrop : ks.drop extra.length = s :: rest := by rw [hr]; simp
          have hs64 : s < 64 := hsym s (by rw [hr]; simp)
          have hrestsym : ∀ c ∈ rest, c < 64 := fun c hc => hsym c (by rw [hr]; simp [hc])
          have hrestlen : ks.length = extra.length + rest.length + 1 := by
            have hx := dropPfx_length hdp
            simp at hx
            omega
          by_cases hbit : tstBit bm s
          · obtain ⟨child, hcget, hcwf⟩ := WF_child (p := pre) (q := extra) hcl hch hs64 hbit
            obtain ⟨child2, hcres, hcwf2, hcmem⟩ :=
              ih child (pre ++ extra ++ [s]) rest e (by omega) hcwf
                (by simp; omega) hrestsym hkwf (by rw [hkey, hr]; simp)
            have hbits_at : (bitsList bm)[getChildIdx bm s]? = some s := by
              rw [getChildIdx_eq]
              exact bitsBelow_get_self hs64 hbit
            have hidxlt : getChildIdx bm s < children.length := by
              rw [hcl]
              exact (List.getElem?_eq_some_iff.mp hbits_at).1
            refine ⟨.mk none bm extra (children.set (getChildIdx bm s) child2), ?_, ?_, ?_⟩
            · rw [createP_succ]
              simp only [RxNode.extraChars, RxNode.entry, RxNode.bitmap, RxNode.children] at ho ⊢
              rw [ho]
              simp only [hdrop, hbit, if_true, listGet_of_getElem hcget, hcres]
            · apply WF.node pre extra bm _ (WF_extra_digits hwf) hl22 hb
              · rw [List.length_set, hcl]
              · intro j s2 c hj1 hj2
                by_cases hji : j = getChildIdx bm s
                · subst hji
                  rw [List.getElem?_set_self hidxlt] at hj1
                  injection hj1 with hc2
                  subst hc2
                  rw [hbits_at] at hj2
                  injection hj2 with hs2
                  subst hs2
                  exact hcwf2
                · rw [List.getElem?_set_ne (fun hx => hji hx.symm)] at hj1
                  exact hch j s2 c hj1 hj2
            · intro ks2
              cases hd : dropPfx extra ks2 with
              | none =>
                have hne2 : ks2 ≠ ks := by
                  intro hq; rw [hq, hdp] at hd; cases hd
                rw [if_neg hne2,
                  mem_none (n := .mk none bm extra (children.set (getChildIdx bm s) child2))
                    (k := ks2) (by show dropPfx extra ks2 = none; exact hd),
                  mem_none (n := .mk none bm extra children) (k := ks2)
                    (by show dropPfx extra ks2 = none; exact hd)]
              | some u =>
                cases u with
                | nil =>
                  have hne2 : ks2 ≠ ks := by
                    intro hq; rw [hq, hdp] at hd; cases hd
                  rw [if_neg hne2,
                    mem_exact (n := .mk none bm extra (children.set (getChildIdx bm s) child2))
                      (k := ks2) (by show dropPfx extra ks2 = some []; exact hd),
                    mem_exact (n := .mk none bm extra children) (k := ks2)
                      (by show dropPfx extra ks2 = some []; exact hd)]
                  rfl
                | cons s2 r2 =>
                  have hks2dec : ks2 = extra ++ s2 :: r2 := dropPfx_eq_some.mp hd
                  rw [mem_step (n := .mk none bm extra (children.set (getChildIdx bm s) child2))
                      (k := ks2) (s := s2) (r := r2)
                      (by show dropPfx extra ks2 = some (s2 :: r2); exact hd),
                    mem_step (n := .mk none bm extra children) (k := ks2) (s := s2) (r := r2)
                      (by show dropPfx extra ks2 = some (s2 :: r2); exact hd)]
                  simp only [RxNode.bitmap, RxNode.children]
                  by_cases hs2 : s2 = s
                  · subst hs2
                    rw [if_pos hbit, if_pos hbit, List.getElem?_set_self hidxlt, hcget]
                    show mem child2 r2 = _
                    rw [hcmem r2]
                    by_cases hr2 : r2 = rest
                    · subst hr2
                      rw [if_pos rfl, if_pos (by rw [hks2dec, hr])]
                    · rw [if_neg hr2,
                        if_neg (show ks2 ≠ ks by
                          rw [hks2dec, hr]; exact append_cons_ne_tail hr2)]
                  · have hne2 : ks2 ≠ ks := by
                      rw [hks2dec, hr]; exact append_cons_ne_head hs2
                    rw [if_neg hne2]
                    by_cases hbit2 : tstBit bm s2
                    · rw [if_pos hbit2, if_pos hbit2]
                      have hidxne : getChildIdx bm s ≠ getChildIdx bm s2 := by
                        rw [getChildIdx_eq, getChildIdx_eq]
                        rcases Nat.lt_or_gt_of_ne hs2 with hlt | hgt
                        · exact fun hx => absurd hx.symm (Nat.ne_of_lt (bitsBelow_len_lt hbit2 hlt))
                        · exact Nat.ne_of_lt (bitsBelow_len_lt hbit hgt)
                      rw [List.getElem?_set_ne hidxne]
                    · rw [if_neg (by simpa using hbit2), if_neg (by simpa using hbit2)]
          · have hbitf : tstBit bm s = false := by simpa using hbit
            have hb2 : bm + 2 ^ s < U64 := add_pow_lt_u64 hbitf hb hs64
            have hidx_eq : getChildIdx (bm + 2 ^ s) s = getChildIdx bm s :=
              getChildIdx_add_pow_self
            have hidxle : getChildIdx bm s ≤ children.length := by
              rw [hcl]
              exact getChildIdx_le_len (by omega)
            have hidxle2 : getChildIdx bm s ≤ (bitsList bm).length := by
              rw [← hcl]; exact hidxle
            have hbl : bitsList (bm + 2 ^ s) = (bitsList bm).insertIdx (getChildIdx bm s) s := by
              unfold bitsList
              rw [getChildIdx_eq]
              exact bitsBelow_add_pow hbitf (by omega)
            have hwf_new : WF (.mk (some e) 0 rest [] : RxNode α) (pre ++ extra ++ [s]) := by
              apply WF.leaf _ _ e hrestsym (by simp; omega) hkwf
              rw [hkey, hr]
              simp
            refine ⟨.mk none (bm + 2 ^ s) extra
              (children.insertIdx (getChildIdx (bm + 2 ^ s) s) (.mk (some e) 0 rest [])), ?_, ?_, ?_⟩
            · rw [createP_succ]
              simp only [RxNode.extraChars, RxNode.entry, RxNode.bitmap, RxNode.children] at ho ⊢
              rw [ho]
              simp only [hdrop, hbitf, Bool.false_eq_true, if_false]
            · rw [hidx_eq]
              apply WF.node pre extra (bm + 2 ^ s) _ (WF_extra_digits hwf) hl22 hb2
              · rw [List.length_insertIdx _ _ hidxle, hcl, hbl,
                  List.length_insertIdx _ _ hidxle2]
              · intro j s2 c hj1 hj2
                rw [hbl] at hj2
                rcases Nat.lt_trichotomy j (getChildIdx bm s) with hj | hj | hj
                · rw [insertIdx_getElem?_lt hidxle hj] at hj1
                  rw [insertIdx_getElem?_lt hidxle2 hj] at hj2
                  exact hch j s2 c hj1 hj2
                · subst hj
                  rw [insertIdx_getElem?_self hidxle] at hj1
                  rw [insertIdx_getElem?_self hidxle2] at hj2
                  injection hj1 with hc2
                  injection hj2 with hs2
                  subst hc2; subst hs2
                  exact hwf_new
                · obtain ⟨j2, hj2eq⟩ : ∃ j2, j = j2 + 1 := ⟨j - 1, by omega⟩
                  subst hj2eq
                  rw [insertIdx_getElem?_ge hidxle (by omega)] at hj1
                  rw [insertIdx_getElem?_ge hidxle2 (by omega)] at hj2
                  exact hch j2 s2 c hj1 hj2
            · intro ks2
              cases hd : dropPfx extra ks2 with
              | none =>
                have hne2 : ks2 ≠ ks := by
                  intro hq; rw [hq, hdp] at hd; cases hd
                rw [if_neg hne2,
                  mem_none (n := .mk none (bm + 2 ^ s) extra
                      (children.insertIdx (getChildIdx (bm + 2 ^ s) s) (.mk (some e) 0 rest [])))
                    (k := ks2) (by show dropPfx extra ks2 = none; exact hd),
                  mem_none (n := .mk none bm extra children) (k := ks2)
                    (by show dropPfx extra ks2 = none; exact hd)]
              | some u =>
                cases u with
                | nil =>
                  have hne2 : ks2 ≠ ks := by
                    intro hq; rw [hq, hdp] at hd; cases hd
                  rw [if_neg hne2,
                    mem_exact (n := .mk none (bm + 2 ^ s) extra
                        (children.insertIdx (getChildIdx (bm + 2 ^ s) s) (.mk (some e) 0 rest [])))
                      (k := ks2) (by show dropPfx extra ks2 = some []; exact hd),
                    mem_exact (n := .mk none bm extra children) (k := ks2)
                      (by show dropPfx extra ks2 = some []; exact hd)]
                  rfl
                | cons s2 r2 =>
                  have hks2dec : ks2 = extra ++ s2 :: r2 := dropPfx_eq_some.mp hd
                  rw [mem_step (n := .mk none (bm + 2 ^ s) extra
                        (children.insertIdx (getChildIdx (bm + 2 ^ s) s) (.mk (some e) 0 rest [])))
                      (k := ks2) (s := s2) (r := r2)
                      (by show dropPfx extra ks2 = some (s2 :: r2); exact hd),
                    mem_step (n := .mk none bm extra children) (k := ks2) (s := s2) (r := r2)
                      (by show dropPfx extra ks2 = some (s2 :: r2); exact hd)]
                  simp only [RxNode.bitmap, RxNode.children]
                  by_cases hs2 : s2 = s
                  · subst hs2
                    rw [if_pos (tstBit_add_pow_self hbitf), hidx_eq,
                      insertIdx_getElem?_self hidxle]
                    show mem (.mk (some e) 0 rest [] : RxNode α) r2 = _
                    rw [mem_leaf_eval]
                    by_cases hr2 : r2 = rest
                    · subst hr2
                      rw [if_pos (dropPfx_eq_some.mpr (by simp)),
                        if_pos (by rw [hks2dec, hr])]
                    · rw [if_neg (fun hx => hr2 (by simpa using dropPfx_eq_some.mp hx)),
                        if_neg (show ks2 ≠ ks by
                          rw [hks2dec, hr]; exact append_cons_ne_tail hr2),
                        if_neg (by simpa using hbitf)]
                  · have hne2 : ks2 ≠ ks := by
                      rw [hks2dec, hr]; exact append_cons_ne_head hs2
                    rw [if_neg hne2]
                    have hbiteq : tstBit (bm + 2 ^ s) s2 = tstBit bm s2 := by
                      rcases Nat.lt_or_gt_of_ne hs2 with hlt | hgt
                      · exact tstBit_add_pow_lt hlt
                      · exact tstBit_add_pow_gt hbitf hgt
                    rw [hbiteq, hidx_eq]
                    by_cases hbit2 : tstBit bm s2
                    · rw [if_pos hbit2, if_pos hbit2]
                      rcases Nat.lt_or_gt_of_ne hs2 with hlt | hgt
                      · have hgci : getChildIdx (bm + 2 ^ s) s2 = getChildIdx bm s2 := by
                          rw [getChildIdx_eq, getChildIdx_eq]
                          congr 1
                          exact bitsBelow_congr s2 (fun i hi => tstBit_add_pow_lt (by omega))
                        rw [hgci, insertIdx_getElem?_lt hidxle
                          (by rw [getChildIdx_eq, getChildIdx_eq]
                              exact bitsBelow_len_lt hbit2 hlt)]
                      · have hgci : getChildIdx (bm + 2 ^ s) s2 = getChildIdx bm s2 + 1 := by
                          rw [getChildIdx_eq, getChildIdx_eq,
                            bitsBelow_add_pow hbitf hgt,
                            List.length_insertIdx _ _
                              (bitsBelow_len_mono bm (show s ≤ s2 by omega))]
                        rw [hgci, insertIdx_getElem?_ge hidxle
                          (by rw [getChildIdx_eq, getChildIdx_eq]
                              exact bitsBelow_len_mono bm (show s ≤ s2 by omega))]
                    · rw [if_neg (by simpa using hbit2), if_neg (by simpa using hbit2)]

theorem greaterThan_iff_lt_pair (a b : Key) :
    a.GreaterThan b = true ↔
      (b.LeftNr < a.LeftNr ∨ (b.LeftNr = a.LeftNr ∧ b.RightNr < a.RightNr)) := by
  unfold Key.GreaterThan
  by_cases h1 : a.LeftNr > b.LeftNr
  · simp [h1]
  · simp only [if_neg h1]
    by_cases h2 : a.LeftNr = b.LeftNr ∧ a.RightNr > b.RightNr
    · simp only [if_pos h2]
      constructor
      · intro _; exact Or.inr ⟨h2.1.symm, h2.2⟩
      · intro _; trivial
    · simp only [if_neg h2]
      constructor
      · intro h3; cases h3
      · intro h3
        exfalso
        rcases h3 with h3 | ⟨h3, h4⟩
        · omega
        · exact h2 ⟨h3.symm, h4⟩

theorem greaterThan_eq_false (a b : Key) :
    a.GreaterThan b = false ↔
      ¬(b.LeftNr < a.LeftNr ∨ (b.LeftNr = a.LeftNr ∧ b.RightNr < a.RightNr)) := by
  rw [← greaterThan_iff_lt_pair]
  cases h : a.GreaterThan b <;> simp [h]

theorem isMin_iff (k : Key) : k.IsMin = true ↔ (k.LeftNr = 0 ∧ k.RightNr = 0) := by
  unfold Key.IsMin
  by_cases h : k.LeftNr = 0 ∧ k.RightNr = 0 <;> simp [h]

theorem isMin_eq_false (k : Key) :
    k.IsMin = false ↔ ¬(k.LeftNr = 0 ∧ k.RightNr = 0) := by
  rw [← isMin_iff]
  cases h : k.IsMin <;> simp [h]

theorem key_repr_inj {a b : Key} (ha : a.Wf) (hb : b.Wf)
    (h : a.internalRepr = b.internalRepr) : a = b := by
  rw [internalRepr_eq, internalRepr_eq] at h
  obtain ⟨hL, hR⟩ :=
    List.append_inj h (by rw [enc11_length _ ha.1, enc11_length _ hb.1])
  have h1 := (enc11_inj _ _ ha.1 hb.1).mp hL
  have h2 := (enc11_inj _ _ ha.2 hb.2).mp hR
  cases a; cases b
  simp_all

theorem mem_empty_root (ks : List Nat) :
    mem (.mk none 0 [] [] : RxNode α) ks = none := by
  rw [mem_leaf_eval]
  split <;> rfl

theorem WF_empty_root : WF (.mk none 0 [] [] : RxNode α) [] := by
  apply WF.node [] [] 0 [] (by intro c hc; cases hc) (by simp) (by rw [U64_eq]; omega)
  · show (0 : Nat) = (bitsList 0).length
    unfold bitsList
    rw [bitsBelow]
    simp [tstBit_zero]
  · intro j s2 c hj1 hj2
    simp at hj1

theorem Search_eq_mem {st : Stream α} (hwf : WF st.root []) {k : Key} (hk : k.Wf) :
    st.Search k = .ok (Option.map Entry.Val (mem st.root k.internalRepr)) := by
  unfold Stream.Search
  obtain ⟨node, fi, ei, hlcp, h1, h2⟩ :=
    lcp_mem (k.internalRepr.length + 1) st.root [] 0 k.internalRepr
      (by omega) hwf (by simp [internalRepr_length k hk])
  simp only [hlcp]
  by_cases hfi : fi = -1
  · obtain ⟨e, hent, hmem⟩ := h1 hfi
    rw [if_pos hfi]
    simp only [hent, hmem]
    rfl
  · rw [if_neg hfi, h2 hfi]
    rfl

/-- The state invariant of a stream: a well-formed trie whose entries
are stored under their own internal representation, are all at most the
last entry key, and the last entry itself is present unless the stream
is empty with the zero key. -/
def Inv (st : Stream α) : Prop :=
  WF st.root [] ∧ st.LastEntry.Key.Wf ∧
  (∀ ks e, mem st.root ks = some e →
    ks = e.Key.internalRepr ∧ e.Key.Wf ∧
    e.Key.GreaterThan st.LastEntry.Key = false) ∧
  (if st.LastEntry.Key.IsMin then ∀ ks, mem st.root ks = (none : Option (Entry α))
   else mem st.root st.LastEntry.Key.internalRepr = some st.LastEntry)

theorem Inv_empty (d : α) : Inv (emptyStream d) := by
  refine ⟨WF_empty_root, ?_, ?_, ?_⟩
  · refine ⟨?_, ?_⟩ <;>
      · show (0 : Nat) < U64
        rw [U64_eq]
        omega
  · intro ks e hm
    have hm2 : mem (.mk none 0 [] [] : RxNode α) ks = some e := hm
    rw [mem_empty_root] at hm2
    cases hm2
  · have hc : (emptyStream d).LastEntry.Key.IsMin = true := rfl
    rw [if_pos hc]
    intro ks
    exact mem_empty_root ks

theorem Put_reject {st : Stream α} {k : Key} (v : α)
    (h : (k.IsMin || !(k.GreaterThan st.LastEntry.Key)) = true) :
    st.Put k v = (st, .error "key too low") := by
  unfold Stream.Put
  rw [if_pos h]

theorem Put_ok {st : Stream α} (hinv : Inv st) {k : Key} (hk : k.Wf) (v : α)
    (hgt : st.LastEntry.Key.LesserThan k = true) :
    ∃ root2,
      st.Put k v = (⟨root2, ⟨k, v⟩⟩, .ok ()) ∧
      (∀ ks, mem root2 ks =
        if ks = k.internalRepr then some ⟨k, v⟩ else mem st.root ks) ∧
      Inv (⟨root2, ⟨k, v⟩⟩ : Stream α) := by
  obtain ⟨hwf, hlwf, hentries, hlast⟩ := hinv
  have hlt := (lesserThan_iff_lt_pair _ _).mp hgt
  have hmin : k.IsMin = false := (isMin_eq_false k).mpr (by omega)
  have hggt : k.GreaterThan st.LastEntry.Key = true :=
    (greaterThan_iff_lt_pair _ _).mpr hlt
  obtain ⟨root2, hcre, hwf2, hmem2⟩ :=
    createP_spec (k.internalRepr.length + 1) st.root [] k.internalRepr ⟨k, v⟩
      (by omega) hwf (by simp [internalRepr_length k hk])
      (internalRepr_digits k hk) hk (by simp)
  refine ⟨root2, ?_, hmem2, ?_⟩
  · unfold Stream.Put
    rw [if_neg (by rw [hmin, hggt]; simp)]
    simp only [hcre]
  · refine ⟨hwf2, hk, ?_, ?_⟩
    · intro ks e hm
      rw [hmem2 ks] at hm
      by_cases hq : ks = k.internalRepr
      · rw [if_pos hq] at hm
        injection hm with hm
        subst hm
        refine ⟨hq, hk, (greaterThan_eq_false _ _).mpr ?_⟩
        show ¬(k.LeftNr < k.LeftNr ∨ (k.LeftNr = k.LeftNr ∧ k.RightNr < k.RightNr))
        omega
      · rw [if_neg hq] at hm
        obtain ⟨hr1, hr2, hr3⟩ := hentries ks e hm
        refine ⟨hr1, hr2, ?_⟩
        rw [greaterThan_eq_false] at hr3 ⊢
        show ¬(k.LeftNr < e.Key.LeftNr ∨ (k.LeftNr = e.Key.LeftNr ∧ k.RightNr < e.Key.RightNr))
        omega
    · have hc : (⟨root2, ⟨k, v⟩⟩ : Stream α).LastEntry.Key.IsMin = false := hmin
      rw [if_neg (by rw [hc]; simp)]
      show mem root2 (Key.internalRepr k) = some ⟨k, v⟩
      rw [hmem2, if_pos rfl]

theorem Inv_put {st : Stream α} (hinv : Inv st) {k : Key} (hk : k.Wf) (v : α) :
    Inv ((st.Put k v).1) := by
  by_cases hg : (k.IsMin || !(k.GreaterThan st.LastEntry.Key)) = true
  · rw [Put_reject v hg]
    exact hinv
  · have hggt : k.GreaterThan st.LastEntry.Key = true := by
      cases h1 : k.IsMin <;> cases h2 : k.GreaterThan st.LastEntry.Key <;>
        simp [h1, h2] at hg ⊢
    have hgt : st.LastEntry.Key.LesserThan k = true :=
      (lesserThan_iff_lt_pair _ _).mpr ((greaterThan_iff_lt_pair _ _).mp hggt)
    obtain ⟨root2, hput, _, hinv2⟩ := Put_ok hinv hk v hgt
    rw [hput]
    exact hinv2

theorem Put_ok_last {st : Stream α} {k : Key} {v : α}
    (h : (st.Put k v).2 = .ok ()) :
    st.LastEntry.Key.LesserThan ((st.Put k v).1).LastEntry.Key = true := by
  unfold Stream.Put at h ⊢
  by_cases hg : (k.IsMin || !(k.GreaterThan st.LastEntry.Key)) = true
  · rw [if_pos hg] at h
    cases h
  · rw [if_neg hg] at h ⊢
    have hggt : k.GreaterThan st.LastEntry.Key = true := by
      cases h1 : k.IsMin <;> cases h2 : k.GreaterThan st.LastEntry.Key <;>
        simp [h1, h2] at hg ⊢
    cases hc : RxNode.createP (k.internalRepr.length + 1) st.root k.internalRepr ⟨k, v⟩ with
    | error msg =>
      simp only [hc] at h
      cases h
    | ok root2 =>
      show st.LastEntry.Key.LesserThan k = true
      exact (lesserThan_iff_lt_pair _ _).mpr ((greaterThan_iff_lt_pair _ _).mp hggt)

theorem putFold_spec (ops : List (Key × α)) :
    ∀ st : Stream α, Inv st →
      (∀ kv ∈ ops, (kv.1).Wf) →
      (∀ kv ∈ ops, st.LastEntry.Key.LesserThan kv.1 = true) →
      ops.Pairwise (fun a b => (a.1).LesserThan b.1 = true) →
      Inv (ops.foldl (fun s kv => (s.Put kv.1 kv.2).1) st) ∧
      (∀ ks, (∀ kv ∈ ops, ks ≠ (kv.1).internalRepr) →
        mem (ops.foldl (fun s kv => (s.Put kv.1 kv.2).1) st).root ks = mem st.root ks) ∧
      (∀ kv ∈ ops,
        mem (ops.foldl (fun s kv => (s.Put kv.1 kv.2).1) st).root (kv.1).internalRepr =
          some ⟨kv.1, kv.2⟩) := by
  induction ops with
  | nil =>
    intro st hinv _ _ _
    refine ⟨hinv, fun ks _ => rfl, ?_⟩
    intro kv hkv
    cases hkv
  | cons kv0 rest ih =>
    intro st hinv hwf hlast hpair
    obtain ⟨hhead, hptail⟩ := List.pairwise_cons.mp hpair
    obtain ⟨root2, hput, hmem2, hinv2⟩ :=
      Put_ok hinv (hwf kv0 (List.mem_cons_self _ _)) kv0.2 (hlast kv0 (List.mem_cons_self _ _))
    have hfold : (kv0 :: rest).foldl (fun s kv => (s.Put kv.1 kv.2).1) st =
        rest.foldl (fun s kv => (s.Put kv.1 kv.2).1)
          (⟨root2, ⟨kv0.1, kv0.2⟩⟩ : Stream α) := by
      show rest.foldl _ ((st.Put kv0.1 kv0.2).1) = _
      rw [hput]
    obtain ⟨hinvF, hB, hA⟩ :=
      ih (⟨root2, ⟨kv0.1, kv0.2⟩⟩ : Stream α) hinv2
        (fun kv hkv => hwf kv (List.mem_cons_of_mem _ hkv))
        (fun kv hkv => hhead kv hkv)
        hptail
    rw [hfold]
    refine ⟨hinvF, ?_, ?_⟩
    · intro ks hks
      rw [hB ks (fun kv hkv => hks kv (List.mem_cons_of_mem _ hkv))]
      show mem root2 ks = _
      rw [hmem2 ks, if_neg (hks kv0 (List.mem_cons_self _ _))]
    · intro kv hkv
      rcases List.mem_cons.mp hkv with hkv | hkv
      · subst hkv
        have hfresh : ∀ kv2 ∈ rest, (kv.1).internalRepr ≠ (kv2.1).internalRepr := by
          intro kv2 hkv2 heq
          have hk2 := key_repr_inj (hwf kv (List.mem_cons_self _ _))
            (hwf kv2 (List.mem_cons_of_mem _ hkv2)) heq
          have hl := hhead kv2 hkv2
          rw [lesserThan_iff_lt_pair, ← hk2] at hl
          omega
        rw [hB _ hfresh]
        show mem root2 _ = _
        rw [hmem2, if_pos rfl]
      · exact hA kv hkv

theorem Inv_putFold (ops : List (Key × α)) :
    ∀ st : Stream α, Inv st → (∀ kv ∈ ops, (kv.1).Wf) →
      Inv (ops.foldl (fun s kv => (s.Put kv.1 kv.2).1) st) := by
  induction ops with
  | nil => intro st hinv _; exact hinv
  | cons kv0 rest ih =>
    intro st hinv hwf
    show Inv (rest.foldl _ ((st.Put kv0.1 kv0.2).1))
    exact ih _ (Inv_put hinv (hwf kv0 (List.mem_cons_self _ _)) kv0.2)
      (fun kv hkv => hwf kv (List.mem_cons_of_mem _ hkv))

theorem Inv_putList (d : α) (ops : List (Key × α))
    (h : ∀ kv ∈ ops, (kv.1).Wf) : Inv (putList d ops) :=
  Inv_putFold ops _ (Inv_empty d) h

theorem minKey_lesserThan {k : Key} (h : k.IsMin = false) :
    MinKey.LesserThan k = true := by
  rw [isMin_eq_false] at h
  rw [lesserThan_iff_lt_pair]
  show (0 : Nat) < k.LeftNr ∨ ((0 : Nat) = k.LeftNr ∧ (0 : Nat) < k.RightNr)
  omega

theorem lexLt_irrefl (p : List Nat) : lexLt p p = false := by
  induction p with
  | nil => rfl
  | cons a as ih =>
    show (decide (a < a) || (decide (a = a) && lexLt as as)) = false
    simp [ih]

theorem lexLt_shared (p u v : List Nat) :
    lexLt (p ++ u) (p ++ v) = true ↔ lexLt u v = true := by
  rw [lexLt_append_iff p p u v rfl, lexLt_irrefl]
  simp

/-- Strict ascending order of entries by the lexicographic order of
their internal key representations. -/
def entLt (e1 e2 : Entry α) : Prop :=
  lexLt e1.Key.internalRepr e2.Key.internalRepr = true

/-- All entries of a list are well-formed and stored below the given
path prefix. -/
def leavesIn (p : List Nat) (l : List (Entry α)) : Prop :=
  ∀ e ∈ l, e.Key.Wf ∧ ∃ u, e.Key.internalRepr = p ++ u

theorem leavesIn_mono {p q : List Nat} {l : List (Entry α)}
    (h : leavesIn (p ++ q) l) : leavesIn p l := by
  intro e he
  obtain ⟨hwf, u, hu⟩ := h e he
  exact ⟨hwf, q ++ u, by rw [hu]; simp⟩

theorem entLt_of_sym {P : List Nat} {a b : Nat} (hab : a < b) {x y : Entry α}
    (hx : ∃ u, x.Key.internalRepr = P ++ a :: u)
    (hy : ∃ v, y.Key.internalRepr = P ++ b :: v) : entLt x y := by
  obtain ⟨u, hu⟩ := hx
  obtain ⟨v, hv⟩ := hy
  show lexLt x.Key.internalRepr y.Key.internalRepr = true
  rw [hu, hv, lexLt_shared]
  exact (lexLt_cons a b u v).mpr (Or.inl hab)

theorem entry_some_spec {n : RxNode α} {p : List Nat} (hwf : WF n p)
    {e : Entry α} (h : n.entry = some e) :
    e.Key.Wf ∧ e.Key.internalRepr = p ++ n.extraChars := by
  cases hwf with
  | leaf pre extra e0 hdig hl hkwf hkey =>
    have he0 : e0 = e := by
      have h2 : (RxNode.mk (some e0) 0 extra [] : RxNode α).entry = some e := h
      simpa [RxNode.entry] using h2
    subst he0
    exact ⟨hkwf, hkey⟩
  | node pre extra bm children hdig hdep hb hcl hch =>
    exact absurd h (by simp [RxNode.entry])

theorem getAllLeaves_leaf {e : Entry α} {bm : Nat} {extra : List Nat}
    {ch : List (RxNode α)} :
    (RxNode.mk (some e) bm extra ch : RxNode α).getAllLeaves = [e] := by
  rw [RxNode.getAllLeaves]

theorem getAllLeaves_node {bm : Nat} {extra : List Nat}
    {children : List (RxNode α)} :
    (RxNode.mk none bm extra children : RxNode α).getAllLeaves =
      children.flatMap (fun c => c.getAllLeaves) := by
  conv_lhs => rw [RxNode.getAllLeaves]
  conv_rhs => rw [← List.attach_map_subtype_val children]
  rw [List.flatMap_map]

theorem getAllLeaves_spec {n : RxNode α} {p : List Nat} (hwf : WF n p) :
    leavesIn (p ++ n.extraChars) n.getAllLeaves ∧
    n.getAllLeaves.Pairwise (fun x y => entLt x y) := by
  induction hwf with
  | leaf pre extra e hdig hl hkwf hkey =>
    rw [getAllLeaves_leaf]
    constructor
    · intro e2 he2
      have he2 : e2 = e := by simpa using he2
      subst he2
      exact ⟨hkwf, [], by rw [hkey]; simp [RxNode.extraChars]⟩
    · simp
  | node pre extra bm children hdig hdep hb hcl hch ih =>
    rw [getAllLeaves_node]
    have hbits : (bitsList bm).Pairwise (· < ·) := bitsBelow_sorted bm 64
    constructor
    · intro e he
      obtain ⟨c, hc, hec⟩ := List.mem_flatMap.mp he
      obtain ⟨i, hi, hceq⟩ := List.getElem_of_mem hc
      subst hceq
      have hib : i < (bitsList bm).length := by omega
      obtain ⟨h1, _⟩ := ih i (bitsList bm)[i] _
        (List.getElem?_eq_getElem hi) (List.getElem?_eq_getElem hib)
      obtain ⟨hwfe, u, hu⟩ := h1 e hec
      refine ⟨hwfe,
        [(bitsList bm)[i]] ++ children[i].extraChars ++ u, ?_⟩
      rw [hu]
      simp [RxNode.extraChars]
    · rw [List.pairwise_flatMap]
      constructor
      · intro c hc
        obtain ⟨i, hi, hceq⟩ := List.getElem_of_mem hc
        subst hceq
        have hib : i < (bitsList bm).length := by omega
        exact (ih i (bitsList bm)[i] _
          (List.getElem?_eq_getElem hi)
          (List.getElem?_eq_getElem hib)).2
      · rw [List.pairwise_iff_getElem]
        intro i j hi hj hij
        intro x hx y hy
        have hib : i < (bitsList bm).length := by omega
        have hjb : j < (bitsList bm).length := by omega
        have hsij : (bitsList bm)[i] < (bitsList bm)[j] :=
          List.pairwise_iff_getElem.mp hbits i j hib hjb hij
        obtain ⟨hxi, _⟩ := ih i (bitsList bm)[i] _
          (List.getElem?_eq_getElem hi) (List.getElem?_eq_getElem hib)
        obtain ⟨hyj, _⟩ := ih j (bitsList bm)[j] _
          (List.getElem?_eq_getElem hj) (List.getElem?_eq_getElem hjb)
        obtain ⟨_, u, hu⟩ := hxi x hx
        obtain ⟨_, v, hv⟩ := hyj y hy
        refine entLt_of_sym (P := pre ++ extra) hsij
          ⟨children[i].extraChars ++ u, ?_⟩
          ⟨children[j].extraChars ++ v, ?_⟩
        · rw [hu]; simp
        · rw [hv]; simp

theorem tstBit_lt_64 {b s : Nat} (hb : b < U64) (h : tstBit b s = true) :
    s < 64 := by
  by_contra hs
  have h2 : b / 2 ^ s = 0 := by
    apply Nat.div_eq_of_lt
    calc b < U64 := hb
    _ = 2 ^ 64 := rfl
    _ ≤ 2 ^ s := Nat.pow_le_pow_right (by omega) (by omega)
  unfold tstBit at h
  rw [h2] at h
  cases h

theorem listGet_ok {β : Type} {l : List β} {i : Nat} {x : β}
    (h : listGet l i = .ok x) : l[i]? = some x := by
  unfold listGet at h
  rw [List.get?_eq_getElem?] at h
  cases hg : l[i]? with
  | none => rw [hg] at h; cases h
  | some y =>
    rw [hg] at h
    injection h with h
    rw [h]

theorem goSliceFrom_ok {β : Type} {l : List β} {i : Nat} {r : List β}
    (h : goSliceFrom l i = .ok r) : r = l.drop i := by
  unfold goSliceFrom at h
  split at h
  · cases h
  · injection h with h
    exact h.symm

theorem goSliceTo_ok {β : Type} {l : List β} {j : Int} {r : List β}
    (h : goSliceTo l j = .ok r) : r = l.take j.toNat := by
  unfold goSliceTo at h
  split at h
  · cases h
  · injection h with h
    exact h.symm

theorem subtree_leaves {p : List Nat} {m : RxNode α} (h : ∃ w, WF m (p ++ w)) :
    leavesIn p m.getAllLeaves ∧
    m.getAllLeaves.Pairwise (fun x y => entLt x y) := by
  obtain ⟨w, hw⟩ := h
  obtain ⟨h1, h2⟩ := getAllLeaves_spec hw
  rw [List.append_assoc] at h1
  exact ⟨leavesIn_mono h1, h2⟩

theorem subtree_leaves_sym {p : List Nat} {s : Nat} {m : RxNode α}
    (h : ∃ w, WF m ((p ++ [s]) ++ w)) :
    ∀ x ∈ m.getAllLeaves, x.Key.Wf ∧ ∃ u, x.Key.internalRepr = p ++ s :: u := by
  intro x hx
  obtain ⟨h1, _⟩ := subtree_leaves h
  obtain ⟨hwf, u, hu⟩ := h1 x hx
  exact ⟨hwf, u, by rw [hu]; simp⟩

theorem children_pairwise {p q : List Nat} {bm : Nat} {children : List (RxNode α)}
    (hcl : children.length = (bitsList bm).length)
    (hch : ∀ (i s : Nat) (c : RxNode α), children[i]? = some c →
      (bitsList bm)[i]? = some s → WF c (p ++ q ++ [s])) :
    children.Pairwise
      (fun c1 c2 => ∀ x ∈ c1.getAllLeaves, ∀ y ∈ c2.getAllLeaves, entLt x y) := by
  have hbits : (bitsList bm).Pairwise (· < ·) := bitsBelow_sorted bm 64
  rw [List.pairwise_iff_getElem]
  intro i j hi hj hij x hx y hy
  have hib : i < (bitsList bm).length := by omega
  have hjb : j < (bitsList bm).length := by omega
  have hsij : (bitsList bm)[i] < (bitsList bm)[j] :=
    List.pairwise_iff_getElem.mp hbits i j hib hjb hij
  have hwi := hch i (bitsList bm)[i] children[i]
    (List.getElem?_eq_getElem hi) (List.getElem?_eq_getElem hib)
  have hwj := hch j (bitsList bm)[j] children[j]
    (List.getElem?_eq_getElem hj) (List.getElem?_eq_getElem hjb)
  have hxs := subtree_leaves_sym (p := p ++ q) ⟨[], by simpa [List.append_assoc] using hwi⟩ x hx
  have hys := subtree_leaves_sym (p := p ++ q) ⟨[], by simpa [List.append_assoc] using hwj⟩ y hy
  exact entLt_of_sym hsij hxs.2 hys.2

theorem child_sym_of_mem_drop {p q : List Nat} {bm k : Nat}
    {children : List (RxNode α)} {m : RxNode α}
    (hcl : children.length = (bitsList bm).length)
    (hch : ∀ (i s : Nat) (c : RxNode α), children[i]? = some c →
      (bitsList bm)[i]? = some s → WF c (p ++ q ++ [s]))
    (hm : m ∈ children.drop k) :
    ∃ j s2, k ≤ j ∧ (bitsList bm)[j]? = some s2 ∧ WF m ((p ++ q) ++ [s2]) := by
  obtain ⟨i, hilt, hieq⟩ := List.getElem_of_mem hm
  rw [List.getElem_drop] at hieq
  have hklt : k + i < children.length := by
    rw [List.length_drop] at hilt
    omega
  have hkb : k + i < (bitsList bm).length := by omega
  refine ⟨k + i, (bitsList bm)[k + i], by omega, List.getElem?_eq_getElem hkb, ?_⟩
  have hc := hch (k + i) (bitsList bm)[k + i] m
    (by rw [← hieq]; exact List.getElem?_eq_getElem hklt)
    (List.getElem?_eq_getElem hkb)
  simpa [List.append_assoc] using hc

theorem child_sym_of_mem_take {p q : List Nat} {bm k : Nat}
    {children : List (RxNode α)} {m : RxNode α}
    (hcl : children.length = (bitsList bm).length)
    (hch : ∀ (i s : Nat) (c : RxNode α), children[i]? = some c →
      (bitsList bm)[i]? = some s → WF c (p ++ q ++ [s]))
    (hm : m ∈ children.take k) :
    ∃ j s2, j < k ∧ (bitsList bm)[j]? = some s2 ∧ WF m ((p ++ q) ++ [s2]) := by
  obtain ⟨i, hilt, hieq⟩ := List.getElem_of_mem hm
  rw [List.getElem_take] at hieq
  have hklt : i < children.length ∧ i < k := by
    rw [List.length_take] at hilt
    omega
  have hkb : i < (bitsList bm).length := by omega
  refine ⟨i, (bitsList bm)[i], by omega, List.getElem?_eq_getElem hkb, ?_⟩
  have hc := hch i (bitsList bm)[i] m
    (by rw [← hieq]; exact List.getElem?_eq_getElem hklt.1)
    (List.getElem?_eq_getElem hkb)
  simpa [List.append_assoc] using hc

theorem flatMap_leaves_sorted {p : List Nat} {ms : List (RxNode α)}
    (h1 : ∀ m ∈ ms, ∃ w, WF m (p ++ w))
    (h2 : ms.Pairwise
      (fun m1 m2 => ∀ x ∈ m1.getAllLeaves, ∀ y ∈ m2.getAllLeaves, entLt x y)) :
    leavesIn p (ms.flatMap (fun m => m.getAllLeaves)) ∧
    (ms.flatMap (fun m => m.getAllLeaves)).Pairwise (fun x y => entLt x y) := by
  constructor
  · intro e he
    obtain ⟨m, hm, hem⟩ := List.mem_flatMap.mp he
    exact (subtree_leaves (h1 m hm)).1 e hem
  · rw [List.pairwise_flatMap]
    exact ⟨fun m hm => (subtree_leaves (h1 m hm)).2, h2⟩

theorem WF_pairing {n : RxNode α} {p : List Nat} (hwf : WF n p) :
    n.children.length = (bitsList n.bitmap).length ∧
    (∀ (i s : Nat) (c : RxNode α), n.children[i]? = some c →
      (bitsList n.bitmap)[i]? = some s → WF c (p ++ n.extraChars ++ [s])) ∧
    n.bitmap < U64 := by
  cases hwf with
  | leaf pre extra e hdig hl hkwf hkey =>
    refine ⟨?_, ?_, ?_⟩
    · show ([] : List (RxNode α)).length = (bitsList 0).length
      unfold bitsList
      rw [bitsBelow]
      simp [tstBit_zero]
    · intro i s c h1 h2
      simp [RxNode.children] at h1
    · show (0 : Nat) < U64
      rw [U64_eq]
      omega
  | node pre extra bm children hdig hdep hb hcl hch =>
    exact ⟨hcl, hch, hb⟩

theorem hsd_succ (fuel : Nat) (n : RxNode α) (ks : List Nat)
    (acc : List (RxNode α)) :
    RxNode.higherSiblingsDFS (fuel + 1) n ks acc =
      match cmpExtra n.extraChars ks with
      | .error msg => .error msg
      | .ok .lt => .ok acc
      | .ok .gt => .ok (acc ++ [n])
      | .ok .eq =>
        match ks.drop n.extraChars.length with
        | [] => .ok (acc ++ [n])
        | s :: rest =>
          let childIdx := getChildIdx n.bitmap s
          if tstBit n.bitmap s then
            match goSliceFrom n.children (childIdx + 1) with
            | .error msg => .error msg
            | .ok hi =>
              match listGet n.children childIdx with
              | .error msg => .error msg
              | .ok child => child.higherSiblingsDFS fuel rest (acc ++ hi.reverse)
          else
            match goSliceFrom n.children childIdx with
            | .error msg => .error msg
            | .ok hi => .ok (acc ++ hi.reverse) := rfl

theorem lsd_succ (fuel : Nat) (n : RxNode α) (ks : List Nat)
    (acc : List (RxNode α)) :
    RxNode.lowerSiblingsDFS (fuel + 1) n ks acc =
      match cmpExtra n.extraChars ks with
      | .error msg => .error msg
      | .ok .gt => .ok acc
      | .ok .lt => .ok (acc ++ [n])
      | .ok .eq =>
        match ks.drop n.extraChars.length with
        | [] => .ok (acc ++ [n])
        | s :: rest =>
          let childIdx := getChildIdx n.bitmap s
          if tstBit n.bitmap s then
            match goSliceTo n.children (childIdx : Int) with
            | .error msg => .error msg
            | .ok lo =>
              match listGet n.children childIdx with
              | .error msg => .error msg
              | .ok child => child.lowerSiblingsDFS fuel rest (acc ++ lo)
          else
            match goSliceTo n.children ((childIdx : Int) - 1) with
            | .error msg => .error msg
            | .ok lo => .ok (acc ++ lo) := rfl

theorem higherSiblingsDFS_spec (fuel : Nat) :
    ∀ (n : RxNode α) (p ks : List Nat) (acc nodes : List (RxNode α)),
      WF n p →
      RxNode.higherSiblingsDFS fuel n ks acc = .ok nodes →
      ∃ ms, nodes = acc ++ ms ∧
        (∀ m ∈ ms, ∃ w, WF m (p ++ w)) ∧
        ms.Pairwise
          (fun m1 m2 => ∀ x ∈ m1.getAllLeaves, ∀ y ∈ m2.getAllLeaves, entLt y x) := by
  induction fuel with
  | zero => intro n p ks acc nodes _ h; cases h
  | succ fuel ih =>
    intro n p ks acc nodes hwf h
    obtain ⟨hcl, hch, hblt⟩ := WF_pairing hwf
    rw [hsd_succ] at h
    cases hcmp : cmpExtra n.extraChars ks with
    | error msg => simp only [hcmp] at h; cases h
    | ok o =>
      cases o with
      | lt =>
        simp only [hcmp] at h
        injection h with h
        exact ⟨[], by rw [← h]; simp, by simp, List.Pairwise.nil⟩
      | gt =>
        simp only [hcmp] at h
        injection h with h
        refine ⟨[n], h.symm, ?_, by simp⟩
        intro m hm
        have hm : m = n := by simpa using hm
        subst hm
        exact ⟨[], by simpa using hwf⟩
      | eq =>
        simp only [hcmp] at h
        cases hdrop : ks.drop n.extraChars.length with
        | nil =>
          simp only [hdrop] at h
          injection h with h
          refine ⟨[n], h.symm, ?_, by simp⟩
          intro m hm
          have hm : m = n := by simpa using hm
          subst hm
          exact ⟨[], by simpa using hwf⟩
        | cons s rest =>
          simp only [hdrop] at h
          by_cases hbit : tstBit n.bitmap s
          · simp only [hbit, if_true] at h
            have hs64 : s < 64 := tstBit_lt_64 hblt hbit
            have hbat : (bitsList n.bitmap)[getChildIdx n.bitmap s]? = some s := by
              rw [getChildIdx_eq]
              exact bitsBelow_get_self hs64 hbit
            cases hsf : goSliceFrom n.children (getChildIdx n.bitmap s + 1) with
            | error msg => simp only [hsf] at h; cases h
            | ok hi =>
              simp only [hsf] at h
              cases hlg : listGet n.children (getChildIdx n.bitmap s) with
              | error msg => simp only [hlg] at h; cases h
              | ok child =>
                simp only [hlg] at h
                have hchild : WF child (p ++ n.extraChars ++ [s]) :=
                  hch _ _ _ (listGet_ok hlg) hbat
                obtain ⟨ms2, hnodes, hsub2, hpair2⟩ :=
                  ih child _ rest (acc ++ hi.reverse) nodes hchild h
                have hhi : hi = n.children.drop (getChildIdx n.bitmap s + 1) :=
                  goSliceFrom_ok hsf
                refine ⟨hi.reverse ++ ms2,
                  by rw [hnodes, List.append_assoc], ?_, ?_⟩
                · intro m hm
                  rcases List.mem_append.mp hm with hm | hm
                  · have hm2 : m ∈ n.children.drop (getChildIdx n.bitmap s + 1) := by
                      rw [← hhi]
                      exact List.mem_reverse.mp hm
                    obtain ⟨j, s2, hkj, hbj, hwfm⟩ :=
                      child_sym_of_mem_drop hcl hch hm2
                    exact ⟨n.extraChars ++ [s2],
                      by simpa [List.append_assoc] using hwfm⟩
                  · obtain ⟨w, hwfm⟩ := hsub2 m hm
                    exact ⟨n.extraChars ++ [s] ++ w,
                      by simpa [List.append_assoc] using hwfm⟩
                · rw [List.pairwise_append]
                  refine ⟨?_, hpair2, ?_⟩
                  · rw [List.pairwise_reverse]
                    have hpw := List.Pairwise.sublist
                      (List.drop_sublist (getChildIdx n.bitmap s + 1) n.children)
                      (children_pairwise hcl hch)
                    rw [show hi = n.children.drop (getChildIdx n.bitmap s + 1) from hhi]
                    exact hpw.imp (fun hA x hx y hy => hA y hy x hx)
                  · intro m1 hm1 m2 hm2 x hx y hy
                    have hm12 : m1 ∈ n.children.drop (getChildIdx n.bitmap s + 1) := by
                      rw [← hhi]
                      exact List.mem_reverse.mp hm1
                    obtain ⟨j, s2, hkj, hbj, hwfm1⟩ :=
                      child_sym_of_mem_drop hcl hch hm12
                    obtain ⟨hjlt, hjeq⟩ := List.getElem?_eq_some_iff.mp hbj
                    obtain ⟨hilt, hieq⟩ := List.getElem?_eq_some_iff.mp hbat
                    have hss2 : s < s2 := by
                      have hbits : (bitsList n.bitmap).Pairwise (· < ·) :=
                        bitsBelow_sorted n.bitmap 64
                      have hp := List.pairwise_iff_getElem.mp hbits
                        (getChildIdx n.bitmap s) j hilt hjlt (by omega)
                      rw [hieq, hjeq] at hp
                      exact hp
                    have hxs := subtree_leaves_sym (p := p ++ n.extraChars)
                      ⟨[], by simpa [List.append_assoc] using hwfm1⟩ x hx
                    obtain ⟨w, hwfm2⟩ := hsub2 m2 hm2
                    have hys := subtree_leaves_sym (p := p ++ n.extraChars)
                      ⟨w, by simpa [List.append_assoc] using hwfm2⟩ y hy
                    exact entLt_of_sym hss2 hys.2 hxs.2
          · rw [if_neg (by simp [hbit])] at h
            cases hsf : goSliceFrom n.children (getChildIdx n.bitmap s) with
            | error msg => simp only [hsf] at h; cases h
            | ok hi =>
              simp only [hsf] at h
              injection h with h
              have hhi : hi = n.children.drop (getChildIdx n.bitmap s) :=
                goSliceFrom_ok hsf
              refine ⟨hi.reverse, h.symm, ?_, ?_⟩
              · intro m hm
                have hm2 : m ∈ n.children.drop (getChildIdx n.bitmap s) := by
                  rw [← hhi]
                  exact List.mem_reverse.mp hm
                obtain ⟨j, s2, hkj, hbj, hwfm⟩ :=
                  child_sym_of_mem_drop hcl hch hm2
                exact ⟨n.extraChars ++ [s2],
                  by simpa [List.append_assoc] using hwfm⟩
              · rw [List.pairwise_reverse]
                have hpw := List.Pairwise.sublist
                  (List.drop_sublist (getChildIdx n.bitmap s) n.children)
                  (children_pairwise hcl hch)
                rw [show hi = n.children.drop (getChildIdx n.bitmap s) from hhi]
                exact hpw.imp (fun hA x hx y hy => hA y hy x hx)


theorem lowerSiblingsDFS_spec (fuel : Nat) :
    ∀ (n : RxNode α) (p ks : List Nat) (acc nodes : List (RxNode α)),
      WF n p →
      RxNode.lowerSiblingsDFS fuel n ks acc = .ok nodes →
      ∃ ms, nodes = acc ++ ms ∧
        (∀ m ∈ ms, ∃ w, WF m (p ++ w)) ∧
        ms.Pairwise
          (fun m1 m2 => ∀ x ∈ m1.getAllLeaves, ∀ y ∈ m2.getAllLeaves, entLt x y) := by
  induction fuel with
  | zero => intro n p ks acc nodes _ h; cases h
  | succ fuel ih =>
    intro n p ks acc nodes hwf h
    obtain ⟨hcl, hch, hblt⟩ := WF_pairing hwf
    rw [lsd_succ] at h
    cases hcmp : cmpExtra n.extraChars ks with
    | error msg => simp only [hcmp] at h; cases h
    | ok o =>
      cases o with
      | gt =>
        simp only [hcmp] at h
        injection h with h
        exact ⟨[], by rw [← h]; simp, by simp, List.Pairwise.nil⟩
      | lt =>
        simp only [hcmp] at h
        injection h with h
        refine ⟨[n], h.symm, ?_, by simp⟩
        intro m hm
        have hm : m = n := by simpa using hm
        subst hm
        exact ⟨[], by simpa using hwf⟩
      | eq =>
        simp only [hcmp] at h
        cases hdrop : ks.drop n.extraChars.length with
        | nil =>
          simp only [hdrop] at h
          injection h with h
          refine ⟨[n], h.symm, ?_, by simp⟩
          intro m hm
          have hm : m = n := by simpa using hm
          subst hm
          exact ⟨[], by simpa using hwf⟩
        | cons s rest =>
          simp only [hdrop] at h
          by_cases hbit : tstBit n.bitmap s
          · simp only [hbit, if_true] at h
            have hs64 : s < 64 := tstBit_lt_64 hblt hbit
            have hbat : (bitsList n.bitmap)[getChildIdx n.bitmap s]? = some s := by
              rw [getChildIdx_eq]
              exact bitsBelow_get_self hs64 hbit
            cases hsf : goSliceTo n.children ((getChildIdx n.bitmap s : Nat) : Int) with
            | error msg => simp only [hsf] at h; cases h
            | ok lo =>
              simp only [hsf] at h
              cases hlg : listGet n.children (getChildIdx n.bitmap s) with
              | error msg => simp only [hlg] at h; cases h
              | ok child =>
                simp only [hlg] at h
                have hchild : WF child (p ++ n.extraChars ++ [s]) :=
                  hch _ _ _ (listGet_ok hlg) hbat
                obtain ⟨ms2, hnodes, hsub2, hpair2⟩ :=
                  ih child _ rest (acc ++ lo) nodes hchild h
                have hlo : lo = n.children.take (getChildIdx n.bitmap s) := by
                  have h2 := goSliceTo_ok hsf
                  simpa using h2
                refine ⟨lo ++ ms2,
                  by rw [hnodes, List.append_assoc], ?_, ?_⟩
                · intro m hm
                  rcases List.mem_append.mp hm with hm | hm
                  · have hm2 : m ∈ n.children.take (getChildIdx n.bitmap s) := by
                      rw [← hlo]
                      exact hm
                    obtain ⟨j, s2, hkj, hbj, hwfm⟩ :=
                      child_sym_of_mem_take hcl hch hm2
                    exact ⟨n.extraChars ++ [s2],
                      by simpa [List.append_assoc] using hwfm⟩
                  · obtain ⟨w, hwfm⟩ := hsub2 m hm
                    exact ⟨n.extraChars ++ [s] ++ w,
                      by simpa [List.append_assoc] using hwfm⟩
                · rw [List.pairwise_append]
                  refine ⟨?_, hpair2, ?_⟩
                  · have hpw := List.Pairwise.sublist
                      (List.take_sublist (getChildIdx n.bitmap s) n.children)
                      (children_pairwise hcl hch)
                    rw [show lo = n.children.take (getChildIdx n.bitmap s) from hlo]
                    exact hpw
                  · intro m1 hm1 m2 hm2 x hx y hy
                    have hm12 : m1 ∈ n.children.take (getChildIdx n.bitmap s) := by
                      rw [← hlo]
                      exact hm1
                    obtain ⟨j, s2, hkj, hbj, hwfm1⟩ :=
                      child_sym_of_mem_take hcl hch hm12
                    obtain ⟨hjlt, hjeq⟩ := List.getElem?_eq_some_iff.mp hbj
                    obtain ⟨hilt, hieq⟩ := List.getElem?_eq_some_iff.mp hbat
                    have hss2 : s2 < s := by
                      have hbits : (bitsList n.bitmap).Pairwise (· < ·) :=
                        bitsBelow_sorted n.bitmap 64
                      have hp := List.pairwise_iff_getElem.mp hbits
                        j (getChildIdx n.bitmap s) hjlt hilt (by omega)
                      rw [hieq, hjeq] at hp
                      exact hp
                    have hxs := subtree_leaves_sym (p := p ++ n.extraChars)
                      ⟨[], by simpa [List.append_assoc] using hwfm1⟩ x hx
                    obtain ⟨w, hwfm2⟩ := hsub2 m2 hm2
                    have hys := subtree_leaves_sym (p := p ++ n.extraChars)
                      ⟨w, by simpa [List.append_assoc] using hwfm2⟩ y hy
                    exact entLt_of_sym hss2 hxs.2 hys.2
          · rw [if_neg (by simp [hbit])] at h
            cases hsf : goSliceTo n.children ((getChildIdx n.bitmap s : Nat) - 1 : Int) with
            | error msg => simp only [hsf] at h; cases h
            | ok lo =>
              simp only [hsf] at h
              injection h with h
              have hlo : lo =
                  n.children.take (((getChildIdx n.bitmap s : Nat) - 1 : Int)).toNat :=
                goSliceTo_ok hsf
              refine ⟨lo, h.symm, ?_, ?_⟩
              · intro m hm
                have hm2 : m ∈ n.children.take
                    (((getChildIdx n.bitmap s : Nat) - 1 : Int)).toNat := by
                  rw [← hlo]
                  exact hm
                obtain ⟨j, s2, hkj, hbj, hwfm⟩ :=
                  child_sym_of_mem_take hcl hch hm2
                exact ⟨n.extraChars ++ [s2],
                  by simpa [List.append_assoc] using hwfm⟩
              · have hpw := List.Pairwise.sublist
                  (List.take_sublist
                    (((getChildIdx n.bitmap s : Nat) - 1 : Int)).toNat n.children)
                  (children_pairwise hcl hch)
                rw [show lo = n.children.take
                    (((getChildIdx n.bitmap s : Nat) - 1 : Int)).toNat from hlo]
                exact hpw

theorem higherEntries_spec {n : RxNode α} {p ks : List Nat} {l : List (Entry α)}
    (hwf : WF n p) (h : n.higherEntries ks = .ok l) :
    leavesIn p l ∧ l.Pairwise (fun x y => entLt x y) := by
  unfold RxNode.higherEntries at h
  cases hd : RxNode.higherSiblingsDFS (ks.length + 1) n ks [] with
  | error msg => simp only [hd] at h; cases h
  | ok nodes =>
    simp only [hd] at h
    injection h with h
    subst h
    obtain ⟨ms, hnodes, hsub, hpair⟩ :=
      higherSiblingsDFS_spec _ n p ks [] nodes hwf hd
    have hms : nodes = ms := by simpa using hnodes
    subst hms
    refine flatMap_leaves_sorted ?_ ?_
    · intro m hm
      exact hsub m (List.mem_reverse.mp hm)
    · rw [List.pairwise_reverse]
      exact hpair.imp (fun hD x hx y hy => hD y hy x hx)

theorem lowerEntries_spec {n : RxNode α} {p ks : List Nat} {l : List (Entry α)}
    (hwf : WF n p) (h : n.lowerEntries ks = .ok l) :
    leavesIn p l ∧ l.Pairwise (fun x y => entLt x y) := by
  unfold RxNode.lowerEntries at h
  cases hd : RxNode.lowerSiblingsDFS (ks.length + 1) n ks [] with
  | error msg => simp only [hd] at h; cases h
  | ok nodes =>
    simp only [hd] at h
    injection h with h
    subst h
    obtain ⟨ms, hnodes, hsub, hpair⟩ :=
      lowerSiblingsDFS_spec _ n p ks [] nodes hwf hd
    have hms : nodes = ms := by simpa using hnodes
    subst hms
    exact flatMap_leaves_sorted hsub hpair

theorem mid_zero (n : RxNode α) (i : Nat) :
    RxNode.midLeaves n i 0 = .ok [] := rfl

theorem mid_succ (n : RxNode α) (i cnt : Nat) :
    RxNode.midLeaves n i (cnt + 1) =
      if tstBit n.bitmap i then
        match listGet n.children (getChildIdx n.bitmap i) with
        | .error msg => .error msg
        | .ok child =>
          match RxNode.midLeaves n (i + 1) cnt with
          | .error msg => .error msg
          | .ok restL => .ok (child.getAllLeaves ++ restL)
      else RxNode.midLeaves n (i + 1) cnt := rfl

theorem midLeaves_spec {n : RxNode α} {p : List Nat} (hwf : WF n p) :
    ∀ (cnt i : Nat) (l : List (Entry α)),
      RxNode.midLeaves n i cnt = .ok l →
      (∀ e ∈ l, e.Key.Wf ∧ ∃ s u, i ≤ s ∧ s < i + cnt ∧
        e.Key.internalRepr = (p ++ n.extraChars) ++ s :: u) ∧
      l.Pairwise (fun x y => entLt x y) := by
  obtain ⟨hcl, hch, hblt⟩ := WF_pairing hwf
  intro cnt
  induction cnt with
  | zero =>
    intro i l h
    rw [mid_zero] at h
    injection h with h
    subst h
    exact ⟨by simp, by simp⟩
  | succ cnt ih =>
    intro i l h
    rw [mid_succ] at h
    by_cases hbit : tstBit n.bitmap i
    · simp only [hbit, if_true] at h
      cases hlg : listGet n.children (getChildIdx n.bitmap i) with
      | error msg => simp only [hlg] at h; cases h
      | ok child =>
        simp only [hlg] at h
        cases hmid : RxNode.midLeaves n (i + 1) cnt with
        | error msg => simp only [hmid] at h; cases h
        | ok restL =>
          simp only [hmid] at h
          injection h with h
          subst h
          have hi64 : i < 64 := tstBit_lt_64 hblt hbit
          have hbat : (bitsList n.bitmap)[getChildIdx n.bitmap i]? = some i := by
            rw [getChildIdx_eq]
            exact bitsBelow_get_self hi64 hbit
          have hchild : WF child (p ++ n.extraChars ++ [i]) :=
            hch _ _ _ (listGet_ok hlg) hbat
          obtain ⟨hr1, hr2⟩ := ih (i + 1) restL hmid
          have hcs := subtree_leaves_sym (p := p ++ n.extraChars)
            (m := child) ⟨[], by simpa [List.append_assoc] using hchild⟩
          constructor
          · intro e he
            rcases List.mem_append.mp he with he | he
            · obtain ⟨hwfe, u, hu⟩ := hcs e he
              exact ⟨hwfe, i, u, by omega, by omega, hu⟩
            · obtain ⟨hwfe, s, u, hs1, hs2, hu⟩ := hr1 e he
              exact ⟨hwfe, s, u, by omega, by omega, hu⟩
          · rw [List.pairwise_append]
            refine ⟨(subtree_leaves (p := p)
              ⟨n.extraChars ++ [i], by simpa [List.append_assoc] using hchild⟩).2,
              hr2, ?_⟩
            intro x hx y hy
            obtain ⟨_, u, hu⟩ := hcs x hx
            obtain ⟨_, s, v, hs1, _, hv⟩ := hr1 y hy
            exact entLt_of_sym (show i < s by omega) ⟨u, hu⟩ ⟨v, hv⟩
    · rw [if_neg (by simp [hbit])] at h
      obtain ⟨hr1, hr2⟩ := ih (i + 1) l h
      refine ⟨?_, hr2⟩
      intro e he
      obtain ⟨hwfe, s, u, hs1, hs2, hu⟩ := hr1 e he
      exact ⟨hwfe, s, u, by omega, by omega, hu⟩

theorem rangeExtraScan_through : ∀ (cs fs ts : List Nat),
    rangeExtraScan cs fs ts = .ok .through →
    ∃ fs2 ts2, fs = cs ++ fs2 ∧ ts = cs ++ ts2 := by
  intro cs
  induction cs with
  | nil => intro fs ts _; exact ⟨fs, ts, rfl, rfl⟩
  | cons c cs ih =>
    intro fs ts h
    cases fs with
    | nil => cases h
    | cons f fs0 =>
      cases ts with
      | nil => cases h
      | cons t ts0 =>
        rw [show rangeExtraScan (c :: cs) (f :: fs0) (t :: ts0) =
            (if f = t ∧ t = c then rangeExtraScan cs fs0 ts0
            else if f = t then .ok .empty
            else if f < c ∧ c < t then .ok .all
            else if c < f ∨ t < c then .ok .empty
            else if c = f then .ok .higher
            else if c = t then .ok .lower
            else rangeExtraScan cs fs0 ts0) from rfl] at h
        by_cases h1 : f = t ∧ t = c
        · rw [if_pos h1] at h
          obtain ⟨fs2, ts2, hf, ht⟩ := ih fs0 ts0 h
          refine ⟨fs2, ts2, ?_, ?_⟩
          · rw [hf, show f = c by omega]
            rfl
          · rw [ht, show t = c by omega]
            rfl
        · rw [if_neg h1] at h
          by_cases h2 : f = t
          · rw [if_pos h2] at h
            injection h with h
            cases h
          · rw [if_neg h2] at h
            by_cases h3 : f < c ∧ c < t
            · rw [if_pos h3] at h
              injection h with h
              cases h
            · rw [if_neg h3] at h
              by_cases h4 : c < f ∨ t < c
              · rw [if_pos h4] at h
                injection h with h
                cases h
              · rw [if_neg h4] at h
                by_cases h5 : c = f
                · rw [if_pos h5] at h
                  injection h with h
                  cases h
                · rw [if_neg h5] at h
                  by_cases h6 : c = t
                  · rw [if_pos h6] at h
                    injection h with h
                    cases h
                  · exfalso
                    omega

theorem re_succ (fuel : Nat) (n : RxNode α) (fs ts : List Nat) :
    RxNode.rangeEntries (fuel + 1) n fs ts =
      match rangeExtraScan n.extraChars fs ts with
      | .error msg => .error msg
      | .ok .empty => .ok []
      | .ok .all => .ok n.getAllLeaves
      | .ok .higher => n.higherEntries fs
      | .ok .lower => n.lowerEntries ts
      | .ok .through =>
        match fs.drop n.extraChars.length, ts.drop n.extraChars.length with
        | [], _ =>
          match n.entry with
          | some e => .ok [e]
          | none => .error "nil dereference"
        | _ :: _, [] => .error "index out of range"
        | f :: frest, t :: trest =>
          if f = t then
            if tstBit n.bitmap t then
              match listGet n.children (getChildIdx n.bitmap t) with
              | .error msg => .error msg
              | .ok child => child.rangeEntries fuel frest trest
            else .ok []
          else
            match
              ((if tstBit n.bitmap f then
                match listGet n.children (getChildIdx n.bitmap f) with
                | .error msg => .error msg
                | .ok fromNode => fromNode.higherEntries frest
              else .ok []) : Res (List (Entry α))) with
            | .error msg => .error msg
            | .ok r1 =>
              match n.midLeaves (f + 1) (t - (f + 1)) with
              | .error msg => .error msg
              | .ok r2 =>
                match
                  ((if tstBit n.bitmap t then
                    match listGet n.children (getChildIdx n.bitmap t) with
                    | .error msg => .error msg
                    | .ok toNode => toNode.lowerEntries trest
                  else .ok []) : Res (List (Entry α))) with
                | .error msg => .error msg
                | .ok r3 => .ok (r1 ++ r2 ++ r3) := rfl

theorem rangeEntries_spec (fuel : Nat) :
    ∀ (n : RxNode α) (p fs ts : List Nat) (l : List (Entry α)),
      WF n p → lexLt fs ts = true →
      RxNode.rangeEntries fuel n fs ts = .ok l →
      leavesIn p l ∧ l.Pairwise (fun x y => entLt x y) := by
  induction fuel with
  | zero => intro n p fs ts l _ _ h; cases h
  | succ fuel ih =>
    intro n p fs ts l hwf hlex h
    obtain ⟨hcl, hch, hblt⟩ := WF_pairing hwf
    rw [re_succ] at h
    cases hscan : rangeExtraScan n.extraChars fs ts with
    | error msg => simp only [hscan] at h; cases h
    | ok o =>
      cases o with
      | empty =>
        simp only [hscan] at h
        injection h with h
        subst h
        exact ⟨by intro e he; simp at he, by simp⟩
      | all =>
        simp only [hscan] at h
        injection h with h
        subst h
        have hs := getAllLeaves_spec hwf
        exact ⟨leavesIn_mono hs.1, hs.2⟩
      | higher =>
        simp only [hscan] at h
        exact higherEntries_spec hwf h
      | lower =>
        simp only [hscan] at h
        exact lowerEntries_spec hwf h
      | through =>
        simp only [hscan] at h
        obtain ⟨fs2, ts2, hfs, hts⟩ := rangeExtraScan_through _ _ _ hscan
        have hdf : fs.drop n.extraChars.length = fs2 := by
          rw [hfs]
          exact List.drop_left _ _
        have hdt : ts.drop n.extraChars.length = ts2 := by
          rw [hts]
          exact List.drop_left _ _
        have hlex2 : lexLt fs2 ts2 = true := by
          rw [hfs, hts] at hlex
          exact (lexLt_shared _ _ _).mp hlex
        cases fs2 with
        | nil =>
          simp only [hdf, hdt] at h
          cases hent : n.entry with
          | some e =>
            simp only [hent] at h
            injection h with h
            subst h
            obtain ⟨hwfe, hkey⟩ := entry_some_spec hwf hent
            refine ⟨?_, by simp⟩
            intro e2 he2
            have he2 : e2 = e := by simpa using he2
            subst he2
            exact ⟨hwfe, n.extraChars, hkey⟩
          | none => simp only [hent] at h; cases h
        | cons f frest =>
          cases ts2 with
          | nil =>
            simp only [hdf, hdt] at h
            cases h
          | cons t trest =>
            simp only [hdf, hdt] at h
            by_cases hft : f = t
            · subst hft
              rw [if_pos rfl] at h
              by_cases hbit : tstBit n.bitmap f
              · rw [if_pos hbit] at h
                have hf64 : f < 64 := tstBit_lt_64 hblt hbit
                have hbat : (bitsList n.bitmap)[getChildIdx n.bitmap f]? = some f := by
                  rw [getChildIdx_eq]
                  exact bitsBelow_get_self hf64 hbit
                cases hlg : listGet n.children (getChildIdx n.bitmap f) with
                | error msg => simp only [hlg] at h; cases h
                | ok child =>
                  simp only [hlg] at h
                  have hchild : WF child (p ++ n.extraChars ++ [f]) :=
                    hch _ _ _ (listGet_ok hlg) hbat
                  have hlex3 : lexLt frest trest = true := by
                    rcases (lexLt_cons f f frest trest).mp hlex2 with h1 | ⟨_, h1⟩
                    · omega
                    · exact h1
                  obtain ⟨h1, h2⟩ := ih child _ frest trest l hchild hlex3 h
                  refine ⟨?_, h2⟩
                  have h3 : leavesIn (p ++ (n.extraChars ++ [f])) l := by
                    intro e he
                    obtain ⟨hwfe, u, hu⟩ := h1 e he
                    exact ⟨hwfe, u, by rw [hu]; simp⟩
                  exact leavesIn_mono h3
              · rw [if_neg (by simp [hbit])] at h
                injection h with h
                subst h
                exact ⟨by intro e he; simp at he, by simp⟩
            · rw [if_neg hft] at h
              have hflt : f < t := by
                rcases (lexLt_cons f t frest trest).mp hlex2 with h1 | ⟨h1, _⟩
                · exact h1
                · exact absurd h1 hft
              cases hr1c : ((if tstBit n.bitmap f then
                  match listGet n.children (getChildIdx n.bitmap f) with
                  | .error msg => .error msg
                  | .ok fromNode => fromNode.higherEntries frest
                else .ok []) : Res (List (Entry α))) with
              | error msg => simp only [hr1c] at h; cases h
              | ok r1 =>
                simp only [hr1c] at h
                cases hmid : RxNode.midLeaves n (f + 1) (t - (f + 1)) with
                | error msg => simp only [hmid] at h; cases h
                | ok r2 =>
                  simp only [hmid] at h
                  cases hr3c : ((if tstBit n.bitmap t then
                      match listGet n.children (getChildIdx n.bitmap t) with
                      | .error msg => .error msg
                      | .ok toNode => toNode.lowerEntries trest
                    else .ok []) : Res (List (Entry α))) with
                  | error msg => simp only [hr3c] at h; cases h
                  | ok r3 =>
                    simp only [hr3c] at h
                    injection h with h
                    subst h
                    have hr1f : (∀ e ∈ r1, e.Key.Wf ∧ ∃ u,
                        e.Key.internalRepr = (p ++ n.extraChars) ++ f :: u) ∧
                        r1.Pairwise (fun x y => entLt x y) := by
                      by_cases hbitf : tstBit n.bitmap f
                      · rw [if_pos hbitf] at hr1c
                        have hf64 : f < 64 := tstBit_lt_64 hblt hbitf
                        have hbat : (bitsList n.bitmap)[getChildIdx n.bitmap f]? =
                            some f := by
                          rw [getChildIdx_eq]
                          exact bitsBelow_get_self hf64 hbitf
                        cases hlg : listGet n.children (getChildIdx n.bitmap f) with
                        | error msg => simp only [hlg] at hr1c; cases hr1c
                        | ok fromNode =>
                          simp only [hlg] at hr1c
                          have hfw : WF fromNode (p ++ n.extraChars ++ [f]) :=
                            hch _ _ _ (listGet_ok hlg) hbat
                          obtain ⟨hl1, hl2⟩ := higherEntries_spec hfw hr1c
                          refine ⟨?_, hl2⟩
                          intro e he
                          obtain ⟨hwfe, u, hu⟩ := hl1 e he
                          exact ⟨hwfe, u, by rw [hu]; simp⟩
                      · rw [if_neg (by simp [hbitf])] at hr1c
                        injection hr1c with hr1c
                        subst hr1c
                        exact ⟨by intro e he; simp at he, by simp⟩
                    have hr3f : (∀ e ∈ r3, e.Key.Wf ∧ ∃ u,
                        e.Key.internalRepr = (p ++ n.extraChars) ++ t :: u) ∧
                        r3.Pairwise (fun x y => entLt x y) := by
                      by_cases hbitt : tstBit n.bitmap t
                      · rw [if_pos hbitt] at hr3c
                        have ht64 : t < 64 := tstBit_lt_64 hblt hbitt
                        have hbat : (bitsList n.bitmap)[getChildIdx n.bitmap t]? =
                            some t := by
                          rw [getChildIdx_eq]
                          exact bitsBelow_get_self ht64 hbitt
                        cases hlg : listGet n.children (getChildIdx n.bitmap t) with
                        | error msg => simp only [hlg] at hr3c; cases hr3c
                        | ok toNode =>
                          simp only [hlg] at hr3c
                          have htw : WF toNode (p ++ n.extraChars ++ [t]) :=
                            hch _ _ _ (listGet_ok hlg) hbat
                          obtain ⟨hl1, hl2⟩ := lowerEntries_spec htw hr3c
                          refine ⟨?_, hl2⟩
                          intro e he
                          obtain ⟨hwfe, u, hu⟩ := hl1 e he
                          exact ⟨hwfe, u, by rw [hu]; simp⟩
                      · rw [if_neg (by simp [hbitt])] at hr3c
                        injection hr3c with hr3c
                        subst hr3c
                        exact ⟨by intro e he; simp at he, by simp⟩
                    obtain ⟨hm1, hm2⟩ := midLeaves_spec hwf (t - (f + 1)) (f + 1) r2 hmid
                    constructor
                    · intro e he
                      rcases List.mem_append.mp he with he | he
                      · rcases List.mem_append.mp he with he | he
                        · obtain ⟨hwfe, u, hu⟩ := hr1f.1 e he
                          exact ⟨hwfe, n.extraChars ++ f :: u, by rw [hu]; simp⟩
                        · obtain ⟨hwfe, s, u, _, _, hu⟩ := hm1 e he
                          exact ⟨hwfe, n.extraChars ++ s :: u, by rw [hu]; simp⟩
                      · obtain ⟨hwfe, u, hu⟩ := hr3f.1 e he
                        exact ⟨hwfe, n.extraChars ++ t :: u, by rw [hu]; simp⟩
                    · rw [List.pairwise_append]
                      refine ⟨?_, hr3f.2, ?_⟩
                      · rw [List.pairwise_append]
                        refine ⟨hr1f.2, hm2, ?_⟩
                        intro x hx y hy
                        obtain ⟨_, u, hu⟩ := hr1f.1 x hx
                        obtain ⟨_, s, v, hs1, _, hv⟩ := hm1 y hy
                        exact entLt_of_sym (show f < s by omega) ⟨u, hu⟩ ⟨v, hv⟩
                      · intro x hx y hy
                        obtain ⟨_, v, hv⟩ := hr3f.1 y hy
                        rcases List.mem_append.mp hx with hx | hx
                        · obtain ⟨_, u, hu⟩ := hr1f.1 x hx
                          exact entLt_of_sym hflt ⟨u, hu⟩ ⟨v, hv⟩
                        · obtain ⟨_, s, u, _, hs2, hu⟩ := hm1 x hx
                          exact entLt_of_sym (show s < t by omega) ⟨u, hu⟩ ⟨v, hv⟩

/-! Claim theorems (first group). -/

/-- A key pair viewed as a single 128-bit number, used to state the
successor / predecessor claims. -/
def toNat128 (k : Key) : Nat := k.LeftNr * U64 + k.RightNr

/-- Stream with the single entry (5,5) := 42, built by one successful
Put. -/
def c1Stream : Stream Nat := putList 0 [(⟨5, 5⟩, 42)]

/-- Stream with the entries (1,5) := 1 and (1,7) := 2, built by two
successful Puts. -/
def c3Stream : Stream Nat := putList 0 [(⟨1, 5⟩, 1), (⟨1, 7⟩, 2)]

/-- C1: the claim requires range(k, k) to return the single entry stored
at k; the code instead short-circuits on (not (from < to)) and returns the
empty list although the entry is present (Search finds it) and the Put
that stored it succeeded.  This contradicts the inclusive contract stated
in the doc comment of Stream.Range, whose own from == to branch inside
rangeEntries is thereby unreachable. -/
theorem claimC1_range_from_eq_to_eval :
    ((emptyStream 0).Put ⟨5, 5⟩ 42).2 = .ok () ∧
    c1Stream.Search ⟨5, 5⟩ = .ok (some 42) ∧
    c1Stream.Range ⟨5, 5⟩ ⟨5, 5⟩ = .ok [] :=
  ⟨rfl, rfl, rfl⟩

/-- C3: the claim states that range never fails on a stream built by
successful puts; on the stream holding (1,5) and (1,7), the call
range((0,1), (1,3)) walks lowerSiblingsDFS into a node whose child for
symbol 3 is absent with childIdx 0 and evaluates children[:childIdx-1],
that is children[:-1], a Go slice-bounds panic, modelled here as the error
result. -/
theorem claimC3_range_panic_eval :
    c3Stream.Range ⟨0, 1⟩ ⟨1, 3⟩ = .error "slice bounds out of range" := rfl

/-- C4: for well-formed keys, the lexicographic pair order coincides with
the lexicographic order of the 22-symbol internal representations. -/
theorem claimC4_encoding_order (a b : Key) (ha : a.Wf) (hb : b.Wf) :
    a.internalRepr.length = 22 ∧ b.internalRepr.length = 22 ∧
      (a.LesserThan b = true ↔ lexLt a.internalRepr b.internalRepr = true) :=
  ⟨internalRepr_length a ha, internalRepr_length b hb, lesserThan_iff_lexLt a b ha hb⟩

/-- Witness for C4 at the concrete keys (1,2) and (1,3). -/
theorem claimC4_encoding_order_witness :
    (⟨1, 2⟩ : Key).internalRepr.length = 22 ∧ (⟨1, 3⟩ : Key).internalRepr.length = 22 ∧
      ((⟨1, 2⟩ : Key).LesserThan ⟨1, 3⟩ = true ↔
        lexLt (⟨1, 2⟩ : Key).internalRepr (⟨1, 3⟩ : Key).internalRepr = true) :=
  claimC4_encoding_order ⟨1, 2⟩ ⟨1, 3⟩ (by decide) (by decide)

/-- Unfold parseEntryKey to its two loops when the input is none of the
special texts. -/
theorem parseEntryKey_loops (now : Nat) (lastKeyUsed : Key) (key : List Char)
    (h1 : key ≠ ['-']) (h2 : key ≠ ['+']) (h3 : key ≠ ['*']) :
    parseEntryKey now key lastKeyUsed =
      match parseLoop1 0 key with
      | .error msg => .error msg
      | .ok (result1, rest) =>
        match parseLoop2 lastKeyUsed result1 0 rest with
        | .error msg => .error msg
        | .ok result2 => .ok (result1, result2) := by
  unfold parseEntryKey
  rw [if_neg h1, if_neg h2, if_neg h3]

/-- C9 counterexample: on the text 1-2-3, which has a hyphen, contains no
character other than digits and hyphens, and overflows nothing, parse
nevertheless returns an error (the second loop rejects the second hyphen
as a non-digit), so the error cases listed by the claim are not
exhaustive. -/
theorem claimC9_counterexample :
    ('-' : Char) ∈ ['1', '-', '2', '-', '3'] ∧
    (∀ c ∈ ['1', '-', '2', '-', '3'], c.isDigit ∨ c = '-' ∨ c = '*') ∧
    (∀ c ∈ ['1', '-', '2', '-', '3'], c.isDigit → c.toNat - 48 < U64) ∧
    parseEntryKey 0 ['1', '-', '2', '-', '3'] ⟨0, 0⟩ =
      .error "invalid stream entry key" :=
  ⟨by decide, by decide, by decide, rfl⟩

/-- C9 (amended): for every text made of a run of digits, a hyphen and a
run of digits (either run possibly empty, an empty side meaning 0), parse
returns the two decimal values, and errors exactly when one of the two
values overflows a uint64; the first overflow encountered wins. -/
theorem claimC9_parse_digits (now : Nat) (lastKeyUsed : Key) (ds1 ds2 : List Char)
    (h1 : ∀ c ∈ ds1, c.isDigit) (h2 : ∀ c ∈ ds2, c.isDigit) :
    parseEntryKey now (ds1 ++ '-' :: ds2) lastKeyUsed =
      if decVal ds1 < U64 then
        if decVal ds2 < U64 then .ok (decVal ds1, decVal ds2)
        else .error "integer overflow"
      else .error "integer overflow" := by
  have hU := U64_eq
  simp only [decVal]
  by_cases hnil : ds1 = [] ∧ ds2 = []
  · obtain ⟨e1, e2⟩ := hnil
    subst e1; subst e2
    show parseEntryKey now ['-'] lastKeyUsed = _
    simp only [decValFrom, List.foldl_nil]
    rw [if_pos (by omega), if_pos (by omega)]
    rfl
  · have hmem : ('-' : Char) ∈ ds1 ++ '-' :: ds2 := by simp
    have hn1 : (ds1 ++ '-' :: ds2) ≠ ['-'] := by
      intro h
      cases ds1 with
      | nil =>
        cases ds2 with
        | nil => exact hnil ⟨rfl, rfl⟩
        | cons x xs => simp at h
      | cons x xs =>
        have := congrArg List.length h
        simp at this
    have hn2 : (ds1 ++ '-' :: ds2) ≠ ['+'] := by
      intro h; rw [h] at hmem; simp at hmem
    have hn3 : (ds1 ++ '-' :: ds2) ≠ ['*'] := by
      intro h; rw [h] at hmem; simp at hmem
    rw [parseEntryKey_loops now lastKeyUsed _ hn1 hn2 hn3]
    rw [parseLoop1_digits ds1 0 ds2 h1 (by omega)]
    by_cases hov1 : decValFrom 0 ds1 < U64
    · rw [if_pos hov1]
      show (match parseLoop2 lastKeyUsed (decValFrom 0 ds1) 0 ds2 with
            | Except.error msg => Except.error msg
            | Except.ok result2 => Except.ok (decValFrom 0 ds1, result2)) = _
      rw [parseLoop2_digits ds2 lastKeyUsed (decValFrom 0 ds1) 0 h2 (by omega)]
      by_cases hov2 : decValFrom 0 ds2 < U64
      · rw [if_pos hov2, if_pos hov1, if_pos hov2]
      · rw [if_neg hov2, if_pos hov1, if_neg hov2]
    · rw [if_neg hov1, if_neg hov1]

/-- Witness for the amended C9 at the concrete text 4-2. -/
theorem claimC9_parse_digits_witness :
    (∀ c ∈ ['4'], c.isDigit) ∧ (∀ c ∈ ['2'], c.isDigit) ∧
    parseEntryKey 0 (['4'] ++ '-' :: ['2']) ⟨0, 0⟩ =
      (if decVal ['4'] < U64 then
        if decVal ['2'] < U64 then .ok (decVal ['4'], decVal ['2'])
        else .error "integer overflow"
      else .error "integer overflow") :=
  ⟨by decide, by decide,
    claimC9_parse_digits 0 ⟨0, 0⟩ ['4'] ['2'] (by decide) (by decide)⟩

/-- C5: the claim requires prev to be the 128-bit predecessor with the
underflow flag true exactly on MIN; the borrow branch of Key.Prev tests
the original RightNr instead of the decremented one, so prev((1,0))
returns (1, MaxUint64) instead of (0, MaxUint64), and prev(MIN) reports no
underflow. -/
theorem claimC5_prev_eval :
    Key.Prev ⟨1, 0⟩ = (⟨1, MaxUint64⟩, false) ∧
    toNat128 ((⟨1, 0⟩ : Key).Prev.1) ≠ (toNat128 ⟨1, 0⟩ + (2 ^ 128 - 1)) % 2 ^ 128 ∧
    (⟨0, 0⟩ : Key).Prev.2 = false := by
  refine ⟨by decide, by decide, by decide⟩

/-- C2: for a sequence of strictly increasing well-formed non-minimal
keys inserted by Put (all of which succeed under these hypotheses),
Search of every inserted key returns its value, and Search of any
well-formed key never inserted returns none. -/
theorem claimC2_insert_search (d : α) (ops : List (Key × α))
    (hwf : ∀ kv ∈ ops, (kv.1).Wf)
    (hmin : ∀ kv ∈ ops, (kv.1).IsMin = false)
    (hinc : ops.Pairwise (fun a b => (a.1).LesserThan b.1 = true)) :
    (∀ kv ∈ ops, (putList d ops).Search kv.1 = .ok (some kv.2)) ∧
    (∀ k : Key, k.Wf → (∀ kv ∈ ops, k ≠ kv.1) →
      (putList d ops).Search k = .ok none) := by
  obtain ⟨hinvF, hB, hA⟩ :=
    putFold_spec ops (emptyStream d) (Inv_empty d) hwf
      (fun kv hkv => minKey_lesserThan (hmin kv hkv)) hinc
  unfold putList
  constructor
  · intro kv hkv
    rw [Search_eq_mem hinvF.1 (hwf kv hkv), hA kv hkv]
    rfl
  · intro k hk hne
    rw [Search_eq_mem hinvF.1 hk,
      hB k.internalRepr
        (fun kv hkv heq => hne kv hkv (key_repr_inj hk (hwf kv hkv) heq)),
      show mem (emptyStream d).root k.internalRepr = none from mem_empty_root _]
    rfl

/-- C2 witness. -/
theorem claimC2_insert_search_witness :
    (putList (0 : Nat) [(⟨1, 1⟩, 5), (⟨2, 0⟩, 7)]).Search ⟨1, 1⟩ = .ok (some 5) ∧
    (putList (0 : Nat) [(⟨1, 1⟩, 5), (⟨2, 0⟩, 7)]).Search ⟨3, 3⟩ = .ok none := by
  have h := claimC2_insert_search 0 [(⟨1, 1⟩, 5), (⟨2, 0⟩, 7)]
    (by decide) (by decide) (by decide)
  exact ⟨h.1 (⟨1, 1⟩, 5) (by decide), h.2 ⟨3, 3⟩ (by decide) (by decide)⟩

/-- C6: on every reachable stream state (built by Put operations with
well-formed keys), Put of a minimal key or of a key not greater than
the last entry key returns the KeyTooLow error with the state
unchanged, and Put of a non-minimal key greater than the last entry
key succeeds. -/
theorem claimC6_put_guard (d : α) (ops : List (Key × α))
    (hops : ∀ kv ∈ ops, (kv.1).Wf) (k : Key) (hk : k.Wf) (v : α) :
    ((k.IsMin = true ∨ k.GreaterThan (putList d ops).LastEntry.Key = false) →
      (putList d ops).Put k v = (putList d ops, .error "key too low")) ∧
    (k.IsMin = false → k.GreaterThan (putList d ops).LastEntry.Key = true →
      ∃ root2, (putList d ops).Put k v = (⟨root2, ⟨k, v⟩⟩, .ok ())) := by
  have hinv := Inv_putList d ops hops
  constructor
  · intro hcond
    apply Put_reject
    rcases hcond with hcond | hcond <;> rw [hcond] <;> simp
  · intro hmin hggt
    have hgt : (putList d ops).LastEntry.Key.LesserThan k = true :=
      (lesserThan_iff_lt_pair _ _).mpr ((greaterThan_iff_lt_pair _ _).mp hggt)
    obtain ⟨root2, hput, _, _⟩ := Put_ok hinv hk v hgt
    exact ⟨root2, hput⟩

/-- C6 witness. -/
theorem claimC6_put_guard_witness :
    (putList (0 : Nat) [(⟨1, 1⟩, 5)]).Put ⟨1, 1⟩ 9 =
      (putList (0 : Nat) [(⟨1, 1⟩, 5)], .error "key too low") ∧
    ((putList (0 : Nat) [(⟨1, 1⟩, 5)]).Put ⟨2, 0⟩ 9).2 = .ok () := by
  have h := claimC6_put_guard 0 [(⟨1, 1⟩, 5)] (by decide) ⟨1, 1⟩ (by decide) 9
  have h2 := claimC6_put_guard 0 [(⟨1, 1⟩, 5)] (by decide) ⟨2, 0⟩ (by decide) 9
  refine ⟨h.1 (Or.inr (by decide)), ?_⟩
  obtain ⟨r2, hr⟩ := h2.2 (by decide) (by decide)
  rw [hr]

/-- C7: on every stream built by Put operations with well-formed keys,
the last entry key bounds every present entry from above, the stream is
empty when the last key is minimal and otherwise stores the last entry
under its key, and every successful Put strictly increases the last
entry key. -/
theorem claimC7_last_greatest (d : α) (ops : List (Key × α))
    (hops : ∀ kv ∈ ops, (kv.1).Wf) :
    (∀ ks e, mem (putList d ops).root ks = some e →
      e.Key.GreaterThan (putList d ops).LastEntry.Key = false) ∧
    ((putList d ops).LastEntry.Key.IsMin = true →
      ∀ ks, mem (putList d ops).root ks = none) ∧
    ((putList d ops).LastEntry.Key.IsMin = false →
      mem (putList d ops).root (putList d ops).LastEntry.Key.internalRepr =
        some (putList d ops).LastEntry) ∧
    (∀ k v, ((putList d ops).Put k v).2 = .ok () →
      (putList d ops).LastEntry.Key.LesserThan
        (((putList d ops).Put k v).1).LastEntry.Key = true) := by
  obtain ⟨hwf, hlwf, hentries, hlast⟩ := Inv_putList d ops hops
  refine ⟨fun ks e hm => (hentries ks e hm).2.2, ?_, ?_, fun k v h => Put_ok_last h⟩
  · intro hmin
    rw [if_pos hmin] at hlast
    exact hlast
  · intro hmin
    rw [if_neg (by rw [hmin]; simp)] at hlast
    exact hlast

/-- C7 witness. -/
theorem claimC7_last_greatest_witness :
    mem (putList (0 : Nat) [(⟨1, 1⟩, 5)]).root
        (putList (0 : Nat) [(⟨1, 1⟩, 5)]).LastEntry.Key.internalRepr =
      some (putList (0 : Nat) [(⟨1, 1⟩, 5)]).LastEntry ∧
    (putList (0 : Nat) [(⟨1, 1⟩, 5)]).LastEntry.Key.LesserThan
      (((putList (0 : Nat) [(⟨1, 1⟩, 5)]).Put ⟨2, 0⟩ 9).1).LastEntry.Key = true := by
  have h := claimC7_last_greatest 0 [(⟨1, 1⟩, 5)] (by decide)
  exact ⟨h.2.2.1 (by decide), h.2.2.2 ⟨2, 0⟩ 9 (by rfl)⟩

/-- C8: on every stream built by Put operations with well-formed keys,
whenever Range returns a list (it can also fail, see C3), that list is
sorted in strictly ascending key order; this covers the empty result,
the toKey = MAX path through higherEntries and the general rangeEntries
path. -/
theorem claimC8_range_sorted (d : α) (ops : List (Key × α))
    (hops : ∀ kv ∈ ops, (kv.1).Wf) (fromKey toKey : Key)
    (hf : fromKey.Wf) (ht : toKey.Wf) (l : List (Entry α))
    (h : (putList d ops).Range fromKey toKey = .ok l) :
    l.Pairwise (fun e1 e2 => e1.Key.LesserThan e2.Key = true) := by
  have hinv := Inv_putList d ops hops
  unfold Stream.Range at h
  by_cases hcmp : fromKey.LesserThan toKey = true
  · rw [if_neg (by simp [hcmp])] at h
    have hlex : lexLt fromKey.internalRepr toKey.internalRepr = true :=
      (lesserThan_iff_lexLt _ _ hf ht).mp hcmp
    have hconv : ∀ (l2 : List (Entry α)), leavesIn [] l2 →
        l2.Pairwise (fun x y => entLt x y) →
        l2.Pairwise (fun e1 e2 => e1.Key.LesserThan e2.Key = true) := by
      intro l2 h1 h2
      refine h2.imp_of_mem ?_
      intro a b ha hb hab
      exact (lesserThan_iff_lexLt a.Key b.Key (h1 a ha).1 (h1 b hb).1).mpr hab
    by_cases hmax : toKey.IsMax = true
    · rw [if_pos hmax] at h
      obtain ⟨h1, h2⟩ := higherEntries_spec hinv.1 h
      exact hconv l h1 h2
    · rw [if_neg hmax] at h
      obtain ⟨h1, h2⟩ := rangeEntries_spec (fromKey.internalRepr.length + 1)
        (putList d ops).root [] fromKey.internalRepr toKey.internalRepr l
        hinv.1 hlex h
      exact hconv l h1 h2
  · have hc2 : fromKey.LesserThan toKey = false := by
      cases hx : fromKey.LesserThan toKey
      · rfl
      · exact absurd hx hcmp
    rw [if_pos (by rw [hc2]; rfl)] at h
    injection h with h
    subst h
    exact List.Pairwise.nil

/-- C8 witness: a range that descends into the trie and returns the
empty list (the stored key lies outside the bounds). -/
theorem claimC8_range_sorted_witness :
    List.Pairwise (fun e1 e2 : Entry Nat => e1.Key.LesserThan e2.Key = true)
      ([] : List (Entry Nat)) :=
  claimC8_range_sorted 0 [(⟨1, 5⟩, 1)] (by decide)
    ⟨2, 0⟩ ⟨3, 0⟩ (by decide) (by decide) [] (by rfl)

/-- NewEntryMsg, modelled from the spec and the doXREAD caller in the
crc64 test file (the subscription implementation itself is absent from
src): the message sent to subscriber channels on a successful put. -/
structure NewEntryMsg (α : Type) where
  Entry : Entry α
  SubscriptionID : Nat
deriving DecidableEq, Repr

/-- Subscriber slot, modelled from the spec: a registered channel with
its subscription id, a bounded buffer standing for the Go channel, and
a live flag cleared by unsubscribe. -/
structure Sub (α : Type) where
  id : Nat
  buf : List (NewEntryMsg α)
  cap : Nat
  live : Bool
deriving DecidableEq, Repr

/-- Subscriber registry of a stream, modelled from the spec. -/
structure PubSub (α : Type) where
  subs : List (Sub α)
  nextId : Nat
deriving DecidableEq, Repr

/-- Subscribe, modelled from the spec: register a fresh channel under a
fresh subscription id and return the id. -/
def subscribe (ps : PubSub α) (cap : Nat) : PubSub α × Nat :=
  (⟨ps.subs ++ [⟨ps.nextId, [], cap, true⟩], ps.nextId + 1⟩, ps.nextId)

/-- Unsubscribe, modelled from the spec: drop the subscription with the
given id from delivery. -/
def unsubscribe (ps : PubSub α) (i : Nat) : PubSub α :=
  ⟨ps.subs.map (fun s => if s.id = i then { s with live := false } else s),
   ps.nextId⟩

/-- Delivery after a successful put, modelled from the spec: one
non-blocking send of the new-entry message to every live subscriber;
the message is appended when the channel has room and dropped
otherwise. -/
def deliver (e : Entry α) (ps : PubSub α) : PubSub α :=
  ⟨ps.subs.map (fun s =>
    if s.live && decide (s.buf.length < s.cap) then
      { s with buf := s.buf ++ [⟨e, s.id⟩] }
    else s),
   ps.nextId⟩

/-- Put followed by the subscriber fan-out, modelled from the spec: the
send loop runs only when Put succeeds. -/
def putNotify (st : Stream α) (ps : PubSub α) (k : Key) (v : α) :
    Stream α × PubSub α × Res Unit :=
  match st.Put k v with
  | (st2, .ok ()) => (st2, deliver ⟨k, v⟩ ps, .ok ())
  | (st2, .error msg) => (st2, ps, .error msg)

/-- C10, modelled from the spec (the subscription code is absent from
src): one put delivers to each registered subscriber channel at most
once: every slot of the registry is either unchanged by the put, or
(only when the put succeeded and the subscriber is live) extended by
exactly the one message carrying the new entry and the subscription
id. -/
theorem claimC10_at_most_once (st : Stream α) (ps : PubSub α) (k : Key)
    (v : α) (i : Nat) :
    ((putNotify st ps k v).2.1.subs[i]? = none ↔ ps.subs[i]? = none) ∧
    (∀ s, ps.subs[i]? = some s →
      ((putNotify st ps k v).2.1.subs[i]? = some s ∨
        ((putNotify st ps k v).2.2 = .ok () ∧ s.live = true ∧
          (putNotify st ps k v).2.1.subs[i]? =
            some { s with buf := s.buf ++ [⟨⟨k, v⟩, s.id⟩] }))) := by
  unfold putNotify
  cases hput : st.Put k v with
  | mk st2 res =>
    cases res with
    | error msg =>
      constructor
      · exact Iff.rfl
      · intro s hs
        exact Or.inl hs
    | ok u =>
      cases u
      constructor
      · show ((deliver ⟨k, v⟩ ps).subs[i]? = none ↔ ps.subs[i]? = none)
        unfold deliver
        simp
      · intro s hs
        show ((deliver ⟨k, v⟩ ps).subs[i]? = some s ∨
          (Except.ok () = Except.ok () ∧ s.live = true ∧
            (deliver ⟨k, v⟩ ps).subs[i]? =
              some { s with buf := s.buf ++ [⟨⟨k, v⟩, s.id⟩] }))
        have hd : (deliver ⟨k, v⟩ ps).subs[i]? =
            some (if s.live && decide (s.buf.length < s.cap) then
              { s with buf := s.buf ++ [⟨⟨k, v⟩, s.id⟩] }
            else s) := by
          unfold deliver
          simp only [List.getElem?_map, hs]
          rfl
        by_cases hc : s.live && decide (s.buf.length < s.cap)
        · refine Or.inr ⟨rfl, ?_, ?_⟩
          · have := hc
            cases hl : s.live
            · rw [hl] at this; simp at this
            · rfl
          · rw [hd, if_pos hc]
        · refine Or.inl ?_
          rw [hd, if_neg hc]

/-- C10 witness. -/
theorem claimC10_at_most_once_witness :
    (putNotify (emptyStream (0 : Nat)) ⟨[⟨7, [], 1, true⟩], 8⟩
      ⟨1, 1⟩ 5).2.1.subs[0]? = some ⟨7, [⟨⟨⟨1, 1⟩, 5⟩, 7⟩], 1, true⟩ := by
  have h := (claimC10_at_most_once (emptyStream (0 : Nat))
    ⟨[⟨7, [], 1, true⟩], 8⟩ ⟨1, 1⟩ 5 0).2 ⟨7, [], 1, true⟩ rfl
  rcases h with h | ⟨_, _, h⟩
  · exact absurd h (by decide)
  · exact h

end DiyRedis


